import Mathlib

/-!
# after-effects, `lib/platform/mac.js`

A shallow embedding of the macOS bridge: the application locator
(`afterEffectsNameMatch`, `getAfterEffectsInDirSync`, `findAfterEffectsSync`),
the script generator (`escaped`, `prepareAppleScript`, `writeAppleScriptSync`),
the execution engine (`checkForMissingAppHack`, `executeAppleScriptSync`,
`executeAppleScript`) and the result parser (`parseResults`).

JavaScript strings are Lean strings, read through their character lists. The
file system below a directory is a tree of entries. Effects (module loads,
log-sink calls, file writes, subprocess launches) are recorded in a trace that
is returned next to the outcome of a call.
-/

namespace AfterEffects

set_option maxRecDepth 100000

/-! ## Strings and Node paths -/

/-- `String.prototype.includes`: `key` occurs in `s` as a contiguous run. -/
def includes (s key : String) : Bool :=
  s.data.tails.any (fun t => key.data.isPrefixOf t)

/-- `String.prototype.endsWith`. -/
def endsWith (s suffix : String) : Bool :=
  suffix.data.isSuffixOf s.data

/-- The last component of a path: trailing separators are ignored, then
everything after the last remaining separator is kept. -/
def lastComponent (p : List Char) : List Char :=
  ((p.reverse.dropWhile (· == '/')).takeWhile (· != '/')).reverse

/-- `path.extname` on one component: the text from the last dot on; empty when
there is no dot, when the only dot leads the component, or for `..`. -/
def extnameOf (c : List Char) : List Char :=
  let tail := (c.reverse.takeWhile (· != '.')).reverse
  if c.all (· != '.') then []
  else if c.length = tail.length + 1 then []
  else if c = ['.', '.'] then []
  else '.' :: tail

/-- `path.extname(path)`. -/
def extname (p : String) : String :=
  ⟨extnameOf (lastComponent p.data)⟩

/-- `path.basename(path, ext)`: the last component, with `ext` removed from its
end when `ext` is a proper suffix of it. An empty `ext` removes nothing, and a
path equal to `ext` gives the empty string. -/
def basename (p ext : String) : String :=
  let c := lastComponent p.data
  if ext.data = [] then ⟨c⟩
  else if ext = p then ""
  else if ext.data.isSuffixOf c && c != ext.data then ⟨c.take (c.length - ext.data.length)⟩
  else ⟨c⟩

/-- `path.join(dir, name)` for a directory path without `.`, `..` or empty
inner segments and one entry name: the two are put together with exactly one
separator between them, and an empty result is `.`. -/
def pathJoin (dir name : String) : String :=
  if dir = "" then (if name = "" then "." else name)
  else if dir.data.getLast? = some '/' then dir ++ name
  else dir ++ "/" ++ name

/-! ## The file system seen by the locator -/

/-- One entry of a directory listing, with what lies below it. -/
inductive Entry where
  | file (name : String)
  | dir (name : String) (accessible : Bool) (children : List Entry)

/-- The name `readdirSync` reports for the entry. -/
def Entry.name : Entry → String
  | .file n => n
  | .dir n _ _ => n

/-- Modelled from the spec: `isAccessibleDirSync` of the module
`lib/util/fs-util`, whose code is kept elsewhere. The path is an accessible,
traversable directory; the entry found at the path carries the answer. -/
def isAccessibleDirSync : Entry → Bool
  | .file _ => false
  | .dir _ accessible _ => accessible

/-- JavaScript truthiness of a value that is `null` or a string. -/
def truthyUrl : Option String → Bool
  | none => false
  | some s => s != ""

/-! ## Find After Effects -/

/-- `afterEffectsNameMatch(url, renderEngine)`; a call that leaves the flag
out passes `false`. -/
def afterEffectsNameMatch (url : String) (renderEngine : Bool) : Bool :=
  let ext := extname url
  let basename := basename url ext
  let key := "Adobe After Effects" ++ (if renderEngine then " Render Engine" else "")
  includes basename key

/-- `getAfterEffectsInDirSync(dir, renderEngine)`, over the listing of `dir`. -/
def getAfterEffectsInDirSync (dir : String) (renderEngine : Bool) : List Entry → Option String
  | [] => none
  | e :: names =>
    let url := pathJoin dir e.name
    if isAccessibleDirSync e && afterEffectsNameMatch url renderEngine && endsWith url ".app" then
      some url
    else getAfterEffectsInDirSync dir renderEngine names

mutual
/-- One round of the `for` loop of `findAfterEffectsSync`, for the entry `e` of
`dir`: the value of `afterEffects` after the conditional assignment. The
recursive call is `findAfterEffectsSync(url, renderEngine)` written out. -/
def findStep (dir : String) (renderEngine : Bool) (afterEffects : Option String) :
    Entry → Option String
  | .file _ => afterEffects
  | .dir name accessible children =>
    let url := pathJoin dir name
    if isAccessibleDirSync (.dir name accessible children) &&
        afterEffectsNameMatch url false then
      let found := getAfterEffectsInDirSync url renderEngine children
      if truthyUrl found then found
      else findLoop url renderEngine found children
    else afterEffects
/-- The `for` loop of `findAfterEffectsSync` over the listing of `dir`, with
the running value of `afterEffects`; it stops at the first truthy value. -/
def findLoop (dir : String) (renderEngine : Bool) (afterEffects : Option String) :
    List Entry → Option String
  | [] => afterEffects
  | e :: names =>
    let afterEffects := findStep dir renderEngine afterEffects e
    if truthyUrl afterEffects then afterEffects
    else findLoop dir renderEngine afterEffects names
end

/-- `findAfterEffectsSync(dir, renderEngine)`, over the tree below `dir`. -/
def findAfterEffectsSync (dir : String) (entries : List Entry) (renderEngine : Bool) :
    Option String :=
  let afterEffects := getAfterEffectsInDirSync dir renderEngine entries
  if truthyUrl afterEffects then afterEffects
  else findLoop dir renderEngine afterEffects entries

/-! ## Values, errors and effects -/

/-- A JavaScript value as far as the bridge looks at one. Numbers are the
integers and `NaN`, which is all that truthiness tells apart. -/
inductive JSValue where
  | undefined
  | null
  | bool (b : Bool)
  | num (n : Int)
  | nan
  | str (s : String)
  | arr (items : List JSValue)
  | obj (props : List (String × JSValue))

/-- JavaScript truthiness. -/
def JSValue.truthy : JSValue → Bool
  | .undefined => false
  | .null => false
  | .bool b => b
  | .num n => n != 0
  | .nan => false
  | .str s => s != ""
  | .arr _ => true
  | .obj _ => true

/-- The object the result channel holds, of the shape
`{ error?: any, logs?: sequence, result?: any }`; a field that is left out, or
set to `undefined`, is `none`. -/
structure Envelope where
  error : Option JSValue
  logs : Option (List JSValue)
  result : Option JSValue

/-- The error object `child_process` raises when the subprocess fails. -/
structure HostError where
  message : String
  status : Option Int
  stderr : String

/-- What a call of the bridge can throw. The classes of `./errors` are the
first three constructors, each with the argument its constructor is given. -/
inductive JSError where
  | afterEffectsMissing
  | afterEffectsScript (error : JSValue)
  | noResult (message : String)
  | couldNotCreateAppleScript (message : String)
  | error (message : String)
  | host (err : HostError)
  | referenceError (identifier : String)

/-- An effect a call performs on the world outside. -/
inductive Event where
  | required (id : JSValue)
  | logged (args : List JSValue)
  | wroteFile (url text : String)
  | spawned (command : String)

/-- A finished call: what it returned or threw, after the effects of `trace`,
oldest first. -/
structure Run (α : Type) where
  outcome : Except JSError α
  trace : List Event

/-! ## Errors -/

/-- The message `CouldNotCreateAppleScriptError` builds from `msg`. -/
def couldNotCreateAppleScriptMessage (msg : String) : String :=
  "Could not create AppleScript file for After Effects execution" ++
    (if msg != "" then ": " ++ msg else ".")

/-- `checkForMissingAppHack(error)`. -/
def checkForMissingAppHack (error : HostError) : JSError :=
  if includes error.message "Expected end of line but found" then .afterEffectsMissing
  else .host error

/-! ## Escaping -/

/-- The UTF-16 code units of a character: one below the supplementary planes, a
surrogate pair above. -/
def codeUnits (c : Char) : List Nat :=
  if c.toNat < 65536 then [c.toNat]
  else [55296 + (c.toNat - 65536) / 1024, 56320 + (c.toNat - 65536) % 1024]

/-- The upper-case hexadecimal digit of a number below sixteen. -/
def hexDigit (n : Nat) : Char :=
  if n < 10 then Char.ofNat (48 + n) else Char.ofNat (55 + n)

/-- A decimal digit. -/
def isDigit (c : Char) : Bool :=
  48 ≤ c.toNat && c.toNat ≤ 57

/-- Modelled from the spec: the characters `jsesc` copies without a further
look, the printable ASCII characters other than the double quote, the
apostrophe, the backslash and the backtick. -/
def isWhitelisted (c : Char) : Bool :=
  c.toNat = 32 || c.toNat = 33 || (35 ≤ c.toNat && c.toNat ≤ 38) ||
    (40 ≤ c.toNat && c.toNat ≤ 91) || (93 ≤ c.toNat && c.toNat ≤ 95) ||
    (97 ≤ c.toNat && c.toNat ≤ 126)

/-- Modelled from the spec: the hexadecimal escape `jsesc` writes for one code
unit, two digits after an x up to 255 and four digits after a u above. -/
def escapeUnit (u : Nat) : List Char :=
  if u ≤ 255 then [Char.ofNat 92, 'x', hexDigit (u / 16), hexDigit (u % 16)]
  else [Char.ofNat 92, 'u', hexDigit (u / 4096), hexDigit (u / 256 % 16),
    hexDigit (u / 16 % 16), hexDigit (u % 16)]

/-- Modelled from the spec: what `jsesc` writes for one character when double
quotes are chosen, `next` being the character after it. Quotes of the other
kinds stay as they are, a zero byte is short unless a digit follows, and the
backslash and the common control characters have one-letter escapes. -/
def escapeChar (c : Char) (next : Option Char) : List Char :=
  if isWhitelisted c then [c]
  else if c.toNat = 34 then [Char.ofNat 92, c]
  else if c.toNat = 96 then [c]
  else if c.toNat = 39 then [c]
  else if c.toNat = 0 ∧ next.any isDigit = false then [Char.ofNat 92, '0']
  else if c.toNat = 92 then [Char.ofNat 92, Char.ofNat 92]
  else if c.toNat = 8 then [Char.ofNat 92, 'b']
  else if c.toNat = 12 then [Char.ofNat 92, 'f']
  else if c.toNat = 10 then [Char.ofNat 92, 'n']
  else if c.toNat = 13 then [Char.ofNat 92, 'r']
  else if c.toNat = 9 then [Char.ofNat 92, 't']
  else (codeUnits c).flatMap escapeUnit

/-- Modelled from the spec: the escaping `jsesc` does on a whole string,
character by character. -/
def escapeAll : List Char → List Char
  | [] => []
  | c :: rest => escapeChar c rest.head? ++ escapeAll rest

/-- Modelled from the spec: the escaping done by the `jsesc` package, whose
code is kept elsewhere, for a double-quoted literal: the double quote, the
backslash and every character outside printable ASCII are written as escapes,
so that no quote or control character ends the literal early. -/
def jsesc (s : String) : String := ⟨escapeAll s.data⟩

/-- `escaped.call(body)`, with the default `quotes = 'double'`. -/
def escaped (body : String) : String :=
  jsesc body

/-! ## Apple Script -/

/-- The message of the error `prepareAppleScript` throws for the render engine. -/
def renderEngineMessage : String :=
  "Activating the Render Engine for Mac needs to be rethought." ++
    " It cannot be given tells from applescript like the regular app can. We need" ++
    " to come up with a way to detect if the render engine is running, and switch to it" ++
    " if it is not."

/-- `prepareAppleScript(adobified, aeUrl)`. The escaping done by the `jsesc`
package, the temporary directory and the fresh uuid are handed in. -/
def prepareAppleScript (escaped : String → String) (tmp uuid : String)
    (adobified aeUrl : String) : Except JSError (String × String) :=
  let scptUrl := pathJoin tmp ("ae-command-" ++ uuid ++ ".scpt")
  if includes aeUrl "Render Engine.app" then .error (.error renderEngineMessage)
  else
    let scptTxt := String.intercalate "\n"
      ["tell application \"" ++ aeUrl ++ "\"",
       "  DoScript \"" ++ escaped adobified ++ "\"",
       "end tell"]
    .ok (scptUrl, scptTxt)

/-- `writeAppleScriptSync(adobified, aeUrl)`; `writeFileSync` answers with the
message of the failure when the file cannot be written. -/
def writeAppleScriptSync (escaped : String → String) (tmp uuid : String)
    (writeFileSync : String → String → Except String Unit)
    (adobified aeUrl : String) : Run String :=
  match prepareAppleScript escaped tmp uuid adobified aeUrl with
  | .error err => ⟨.error err, []⟩
  | .ok (scptUrl, scptTxt) =>
    match writeFileSync scptUrl scptTxt with
    | .error message =>
      ⟨.error (.couldNotCreateAppleScript (couldNotCreateAppleScriptMessage message)),
        [.wroteFile scptUrl scptTxt]⟩
    | .ok _ => ⟨.ok scptUrl, [.wroteFile scptUrl scptTxt]⟩

/-- `parseResults(resultUrl, logger)`. The log sink is the trace: a call of
`logger` is recorded with its arguments and returns. -/
def parseResults (require : JSValue → Except String Envelope) (resultUrl : JSValue) :
    Run JSValue :=
  match resultUrl with
  | .null => ⟨.ok .null, []⟩
  | _ =>
    match require resultUrl with
    | .error message => ⟨.error (.noResult message), [.required resultUrl]⟩
    | .ok results =>
      let error := results.error.getD .undefined
      let logs := results.logs.getD []
      let result := results.result.getD .undefined
      let logging := if logs.length > 0 then [Event.logged logs] else []
      if error.truthy then ⟨.error (.afterEffectsScript error), .required resultUrl :: logging⟩
      else ⟨.ok result, .required resultUrl :: logging⟩

/-- `executeAppleScriptSync(scriptUrl, resultUrl, logger)`; `execSync` answers
with the error object when the subprocess fails. -/
def executeAppleScriptSync (execSync : String → Except HostError Unit)
    (require : JSValue → Except String Envelope) (scriptUrl : String) (resultUrl : JSValue) :
    Run JSValue :=
  let command := "osascript " ++ scriptUrl
  match execSync command with
  | .error err => ⟨.error (checkForMissingAppHack err), [.spawned command]⟩
  | .ok _ =>
    let parsed := parseResults require resultUrl
    ⟨parsed.outcome, .spawned command :: parsed.trace⟩

/-- `executeAppleScript(scriptUrl, resultUrl, logger)`, as the settled state of
the promise it returns. The module neither declares nor imports `log`, so the
identifier is looked up in the global scope: `log` is `none` when nothing is
bound there, and otherwise what `log.task(err)` does. -/
def executeAppleScript (log : Option (HostError → Except JSError Unit))
    (exec : String → Except HostError Unit)
    (require : JSValue → Except String Envelope) (scriptUrl : String) (resultUrl : JSValue) :
    Run JSValue :=
  let command := "osascript " ++ scriptUrl
  match exec command with
  | .error err =>
    match log with
    | none => ⟨.error (.referenceError "log"), [.spawned command]⟩
    | some task =>
      match task err with
      | .error thrown => ⟨.error thrown, [.spawned command]⟩
      | .ok _ => ⟨.error (checkForMissingAppHack err), [.spawned command]⟩
  | .ok _ =>
    let parsed := parseResults require resultUrl
    ⟨parsed.outcome, .spawned command :: parsed.trace⟩

/-! ## Vocabulary of the statements: the locator -/

/-- The test `getAfterEffectsInDirSync` applies to an entry at `url`. -/
def isHit (renderEngine : Bool) (url : String) (e : Entry) : Bool :=
  isAccessibleDirSync e && afterEffectsNameMatch url renderEngine && endsWith url ".app"

/-- A value of the running variable that is `null` or a non-empty path. -/
def NullOrTruthy (r : Option String) : Prop := r = none ∨ truthyUrl r = true

/-- A name a directory listing can report: not empty and free of separators. -/
def validName (n : String) : Bool :=
  !n.data.isEmpty && !n.data.contains '/'

/-- The name key of `afterEffectsNameMatch`. -/
def nameKey (renderEngine : Bool) : String :=
  "Adobe After Effects" ++ (if renderEngine then " Render Engine" else "")

/-- The test that lets the descent of `findAfterEffectsSync` enter the entry at
`url`; the name match is the one without the render-engine qualifier. -/
def descends (url : String) (e : Entry) : Bool :=
  isAccessibleDirSync e && afterEffectsNameMatch url false

mutual
/-- The entries strictly below `e`, an entry of `dir`, that a walk entering
the directories accepted by `gate` visits, each with its path. -/
def belowEntry (gate : String → Entry → Bool) (dir : String) : Entry → List (String × Entry)
  | .file _ => []
  | .dir n a cs =>
    if gate (pathJoin dir n) (.dir n a cs) then walk gate (pathJoin dir n) cs else []
/-- The entries of the listing of `dir` and, below those the walk enters, theirs. -/
def walk (gate : String → Entry → Bool) (dir : String) : List Entry → List (String × Entry)
  | [] => []
  | e :: es => (pathJoin dir e.name, e) :: (belowEntry gate dir e ++ walk gate dir es)
end

/-- The entry is a directory. -/
def isDirectory : Entry → Bool
  | .file _ => false
  | .dir _ _ _ => true

/-- Every entry of the tree below `dir`, each with its path. -/
def treeEntries (dir : String) (es : List Entry) : List (String × Entry) :=
  walk (fun _ _ => true) dir es

/-- A bundle: a directory whose name contains "Adobe After Effects" and ends
with ".app". -/
def isBundle (e : Entry) : Bool :=
  isDirectory e && includes e.name "Adobe After Effects" && endsWith e.name ".app"

/-- The paths of the bundles of the tree below `dir`. -/
def bundlePaths (dir : String) (es : List Entry) : List String :=
  ((treeEntries dir es).filter (fun x => isBundle x.2)).map Prod.fst

/-- The paths of the bundles that lie in `dir` itself or below a chain of
directories the descent enters. -/
def reachableBundlePaths (dir : String) (es : List Entry) : List String :=
  ((walk descends dir es).filter (fun x => isBundle x.2)).map Prod.fst

/-- Every directory of the tree is accessible. -/
def allAccessible (dir : String) (es : List Entry) : Bool :=
  (treeEntries dir es).all (fun x => !isDirectory x.2 || isAccessibleDirSync x.2)

/-- Every entry of the tree carries a name a listing can report. -/
def wellNamed (dir : String) (es : List Entry) : Bool :=
  (treeEntries dir es).all (fun x => validName x.2.name)

/-- The paths of the accessible directories of the tree below `dir`. -/
def accessibleDirs (dir : String) (es : List Entry) : List String :=
  ((treeEntries dir es).filter (fun x => isAccessibleDirSync x.2)).map Prod.fst

/-- A plain bundle of a listing: an accessible directory whose name contains
"Adobe After Effects" but not "Render Engine" and ends with ".app". -/
def isPlainBundle (e : Entry) : Bool :=
  isAccessibleDirSync e && includes e.name "Adobe After Effects" &&
    !includes e.name "Render Engine" && endsWith e.name ".app"

/-- A render-engine bundle of a listing: an accessible directory whose name
contains "Adobe After Effects Render Engine" and ends with ".app". -/
def isRenderEngineBundle (e : Entry) : Bool :=
  isAccessibleDirSync e && includes e.name "Adobe After Effects Render Engine" &&
    endsWith e.name ".app"

/-- An accessible directory whose name contains "Adobe After Effects" and ends
with ".app", with or without the render-engine qualifier. -/
def isAccessibleBundle (e : Entry) : Bool :=
  isAccessibleDirSync e && includes e.name "Adobe After Effects" && endsWith e.name ".app"

/-! ## Vocabulary of the statements: traces and loading -/

/-- The calls the log sink received, oldest first, each with its arguments. -/
def sinkCalls : List Event → List (List JSValue)
  | [] => []
  | .logged args :: rest => args :: sinkCalls rest
  | _ :: rest => sinkCalls rest

/-- The module ids handed to `require`, oldest first. -/
def loads : List Event → List JSValue
  | [] => []
  | .required id :: rest => id :: loads rest
  | _ :: rest => loads rest

/-- The files written, oldest first. -/
def writes : List Event → List (String × String)
  | [] => []
  | .wroteFile url text :: rest => (url, text) :: writes rest
  | _ :: rest => writes rest

/-- Node's `require` over a table of result files: an id that is not a string
is refused, and so is a path that has no file. The error carries a message. -/
def requireFrom (files : List (String × Envelope)) : JSValue → Except String Envelope
  | .str path =>
    match files.lookup path with
    | some results => .ok results
    | none => .error ("Cannot find module " ++ path)
  | _ => .error "missing path"

/-! ## Vocabulary of the statements: the literal in the script -/

/-- A character of printable ASCII, a line feed, a carriage return or a tab. -/
def isPlainChar (c : Char) : Bool :=
  (32 ≤ c.toNat && c.toNat ≤ 126) || c.toNat = 10 || c.toNat = 13 || c.toNat = 9

/-- The text the body of a double-quoted AppleScript literal denotes, as the
scripting host reads the `DoScript` line; `escaped` says that the character at
hand follows a backslash. After a backslash the host takes a backslash, a
double quote, and the letters n, r and t for line feed, carriage return and
tab; it takes nothing else there, and a double quote without backslash ends
the literal. -/
def readLiteralAux : Bool → List Char → Option (List Char)
  | false, [] => some []
  | true, [] => none
  | true, e :: rest =>
    if e.toNat = 92 then (readLiteralAux false rest).map (Char.ofNat 92 :: ·)
    else if e.toNat = 34 then (readLiteralAux false rest).map (Char.ofNat 34 :: ·)
    else if e.toNat = 110 then (readLiteralAux false rest).map (Char.ofNat 10 :: ·)
    else if e.toNat = 114 then (readLiteralAux false rest).map (Char.ofNat 13 :: ·)
    else if e.toNat = 116 then (readLiteralAux false rest).map (Char.ofNat 9 :: ·)
    else none
  | false, c :: rest =>
    if c.toNat = 92 then readLiteralAux true rest
    else if c.toNat = 34 then none
    else (readLiteralAux false rest).map (c :: ·)

/-- Re-parsing the text between the double quotes of the `DoScript` line as a
double-quoted AppleScript literal. -/
def reparse (s : String) : Option String :=
  (readLiteralAux false s.data).map String.mk

/-- Whether a double quote stands in the text without a backslash before it;
`escaped` says that the character at hand follows a backslash. -/
def hasBareQuoteAux : Bool → List Char → Bool
  | _, [] => false
  | true, _ :: rest => hasBareQuoteAux false rest
  | false, c :: rest =>
    if c.toNat = 92 then hasBareQuoteAux true rest
    else if c.toNat = 34 then true
    else hasBareQuoteAux false rest

/-- Whether a double quote stands in the text without a backslash before it. -/
def hasBareQuote (l : List Char) : Bool :=
  hasBareQuoteAux false l

/-- The last line of a text. -/
def lastLine (l : List Char) : List Char :=
  (l.reverse.takeWhile (· != Char.ofNat 10)).reverse

/-- The text without its last line and the line break before it. -/
def dropLastLine (l : List Char) : List Char :=
  ((l.reverse.dropWhile (· != Char.ofNat 10)).drop 1).reverse

/-- The text between the double quotes of the `DoScript` line of a script, the
line before the closing `end tell`. -/
def embeddedBody (scptTxt : String) : Option String :=
  let line := lastLine (dropLastLine scptTxt.data)
  let opening := "  DoScript \"".data
  if opening.isPrefixOf line && line.getLast? == some (Char.ofNat 34) &&
      decide (opening.length < line.length) then
    some ⟨(line.drop opening.length).dropLast⟩
  else none

/-! ## Sample inputs -/

/-- A tree in which the only bundle sits below a directory the descent skips. -/
def hiddenBundleTree : List Entry :=
  [.dir "Utilities" true [.dir "Adobe After Effects.app" true []]]

/-- A standard installation: the version folder holds the application bundle. -/
def installTree : List Entry :=
  [.file ".DS_Store",
   .dir "Safari.app" true [.file "Info.plist"],
   .dir "Adobe After Effects CC" true
     [.dir "Plug-ins" true [], .dir "Adobe After Effects CC.app" true [.dir "Contents" true []]]]

/-- An installation that ships the render engine next to the application. -/
def engineTree : List Entry :=
  [.dir "Adobe After Effects CC" true
     [.dir "Adobe After Effects CC.app" true [],
      .dir "Adobe After Effects Render Engine.app" true []]]

/-- A listing that reports the render-engine bundle before the plain one. -/
def engineFirstListing : List Entry :=
  [.dir "Adobe After Effects Render Engine.app" true [],
   .dir "Adobe After Effects.app" true []]

/-- A listing that reports the plain bundle before the render-engine one. -/
def plainFirstListing : List Entry :=
  [.file "Install Log.txt",
   .dir "Adobe After Effects CC.app" true [],
   .dir "Adobe After Effects Render Engine.app" true []]

/-- The envelope `{ error: "boom", logs: ["a","b"], result: 42 }`. -/
def boomEnvelope : Envelope :=
  { error := some (.str "boom"), logs := some [.str "a", .str "b"], result := some (.num 42) }

/-- The envelope `{ result: 42 }`. -/
def plainEnvelope : Envelope :=
  { error := none, logs := none, result := some (.num 42) }

/-- A result channel with one file for each of the two envelopes. -/
def resultFiles : List (String × Envelope) :=
  [("/tmp/boom.js", boomEnvelope), ("/tmp/plain.js", plainEnvelope)]

/-- A scripting host that cannot address the application. -/
def missingAppHost : String → Except HostError Unit :=
  fun _ => .error
    { message := "Command failed: 23:31: syntax error: Expected end of line but found identifier. (-2741)",
      status := some 1, stderr := "" }

/-- A scripting host that fails for another reason. -/
def brokenHost : String → Except HostError Unit :=
  fun _ => .error { message := "Command failed: osascript: no such file", status := some 1, stderr := "" }

/-! ## Strings and paths -/

theorem str_ne_empty_iff (s : String) : (s != "") = true ↔ s.data ≠ [] := by
  rw [bne_iff_ne]
  constructor
  · intro h hd; apply h; exact String.ext hd
  · intro h hs; apply h; rw [hs]

theorem pathJoin_data_ne_nil (dir name : String) : (pathJoin dir name).data ≠ [] := by
  unfold pathJoin
  split
  · split
    · decide
    · rename_i h; intro hd; exact h (String.ext hd)
  · rename_i hdir
    have hd : dir.data ≠ [] := fun hd => hdir (String.ext hd)
    split <;> simp [String.data_append, hd]

theorem truthyUrl_pathJoin (dir name : String) : truthyUrl (some (pathJoin dir name)) = true := by
  simp only [truthyUrl]
  exact (str_ne_empty_iff _).2 (pathJoin_data_ne_nil dir name)

theorem includes_iff (s key : String) : includes s key = true ↔ key.data <:+: s.data := by
  unfold includes
  rw [List.any_eq_true]
  constructor
  · rintro ⟨t, ht, hp⟩
    rw [List.mem_tails] at ht
    rw [List.isPrefixOf_iff_prefix] at hp
    exact List.infix_iff_prefix_suffix.2 ⟨t, hp, ht⟩
  · intro h
    obtain ⟨t, hp, hs⟩ := List.infix_iff_prefix_suffix.1 h
    exact ⟨t, (List.mem_tails _ _).2 hs, List.isPrefixOf_iff_prefix.2 hp⟩

theorem endsWith_iff (s suffix : String) : endsWith s suffix = true ↔ suffix.data <:+ s.data := by
  unfold endsWith
  exact List.isSuffixOf_iff_suffix

theorem infix_append_cons {k X Y : List Char} {a : Char} (ha : a ∉ k)
    (h : k <:+: X ++ a :: Y) : k <:+: X ∨ k <:+: Y := by
  obtain ⟨s, t, hst⟩ := h
  rw [List.append_assoc] at hst
  rcases List.append_eq_append_iff.1 hst with ⟨m, hX, hm⟩ | ⟨m, hs, hm⟩
  · rcases List.append_eq_append_iff.1 hm with ⟨m2, hk, h2⟩ | ⟨m2, hk, h2⟩
    · left
      exact ⟨s, m2, by rw [hX, hk, List.append_assoc]⟩
    · cases m2 with
      | nil =>
        left
        rw [List.append_nil] at hk
        exact ⟨s, [], by rw [hX, hk, List.append_nil]⟩
      | cons b m3 =>
        simp only [List.cons_append, List.cons.injEq] at h2
        exfalso
        apply ha
        rw [hk, h2.1]
        simp
  · cases m with
    | nil =>
      cases k with
      | nil => left; exact List.nil_infix
      | cons b k2 =>
        simp only [List.nil_append, List.cons_append, List.cons.injEq] at hm
        exfalso
        apply ha
        rw [hm.1]
        simp
    | cons b m2 =>
      simp only [List.cons_append, List.cons.injEq] at hm
      right
      exact ⟨m2, t, by rw [hm.2, List.append_assoc]⟩

theorem validName_iff (n : String) : validName n = true ↔ n.data ≠ [] ∧ '/' ∉ n.data := by
  unfold validName
  cases hn : n.data with
  | nil => simp
  | cons a l => simp

theorem lastComponent_append {pre n : List Char} (hn : n ≠ []) (hs : '/' ∉ n)
    (hpre : pre = [] ∨ pre.getLast? = some '/') : lastComponent (pre ++ n) = n := by
  unfold lastComponent
  rw [List.reverse_append]
  have hrev : n.reverse ≠ [] := by simpa using hn
  obtain ⟨a, l, hal⟩ := List.exists_cons_of_ne_nil hrev
  have ha : a ≠ '/' := by
    intro h
    apply hs
    have : a ∈ n.reverse := by rw [hal]; simp
    rw [h] at this
    simpa using this
  have hdrop : List.dropWhile (· == '/') (n.reverse ++ pre.reverse) = n.reverse ++ pre.reverse := by
    rw [hal, List.cons_append, List.dropWhile_cons_of_neg]
    simpa using ha
  rw [hdrop]
  have hall : ∀ x ∈ n.reverse, (x != '/') = true := by
    intro x hx
    rw [bne_iff_ne]
    intro h
    apply hs
    rw [h] at hx
    simpa using hx
  rw [List.takeWhile_append_of_pos hall]
  have htail : List.takeWhile (· != '/') pre.reverse = [] := by
    rcases hpre with h | h
    · rw [h]; rfl
    · obtain ⟨ys, hys⟩ := List.getLast?_eq_some_iff.1 h
      rw [hys]
      simp
  rw [htail, List.append_nil, List.reverse_reverse]

theorem pathJoin_data (dir : String) {n : String} (hn : validName n = true) :
    ∃ pre, (pathJoin dir n).data = pre ++ n.data ∧ (pre = [] ∨ pre.getLast? = some '/') := by
  have hne := ((validName_iff n).1 hn).1
  unfold pathJoin
  split
  · refine ⟨[], ?_, Or.inl rfl⟩
    have : n ≠ "" := by
      intro h; apply hne; rw [h]
    simp [this]
  · split
    · rename_i h
      exact ⟨dir.data, by simp [String.data_append], Or.inr h⟩
    · refine ⟨dir.data ++ ['/'], by simp [String.data_append], Or.inr ?_⟩
      simp

theorem lastComponent_pathJoin (dir : String) {n : String} (hn : validName n = true) :
    lastComponent (pathJoin dir n).data = n.data := by
  obtain ⟨pre, hd, hpre⟩ := pathJoin_data dir hn
  rw [hd]
  exact lastComponent_append ((validName_iff n).1 hn).1 ((validName_iff n).1 hn).2 hpre

theorem suffix_pathJoin {dir n : String} (hn : validName n = true) {s : List Char}
    (hs : '/' ∉ s) : s <:+ (pathJoin dir n).data ↔ s <:+ n.data := by
  obtain ⟨pre, hd, hpre⟩ := pathJoin_data dir hn
  rw [hd]
  constructor
  · intro h
    rcases List.suffix_or_suffix_of_suffix h (List.suffix_append pre n.data) with h1 | h1
    · exact h1
    · obtain ⟨t, ht⟩ := h1
      obtain ⟨u, hu⟩ := h
      cases t with
      | nil => simp at ht; rw [ht]
      | cons b t' =>
        exfalso
        rw [← ht, ← List.append_assoc] at hu
        have hpre' : pre = u ++ (b :: t') := (List.append_cancel_right hu).symm
        rcases hpre with h0 | h0
        · rw [h0] at hpre'; simp at hpre'
        · obtain ⟨ys, hys⟩ := List.getLast?_eq_some_iff.1 h0
          apply hs
          rw [← ht]
          have hl : (b :: t').getLast? = some '/' := by
            rw [hpre', List.getLast?_append_of_ne_nil _ (List.cons_ne_nil _ _)] at h0
            exact h0
          have := List.mem_of_getLast?_eq_some hl
          exact List.mem_append_left _ this
  · intro h
    exact h.trans (List.suffix_append pre n.data)

theorem extnameOf_append {X t : List Char} (hX : X ≠ []) (ht : '.' ∉ t) (ht2 : t ≠ []) :
    extnameOf (X ++ '.' :: t) = '.' :: t := by
  have htail : ((X ++ '.' :: t).reverse.takeWhile (· != '.')).reverse = t := by
    have hall : ∀ x ∈ t.reverse, (x != '.') = true := by
      intro x hx
      rw [bne_iff_ne]
      intro h
      apply ht
      rw [h] at hx
      simpa using hx
    rw [List.reverse_append, List.reverse_cons, List.append_assoc,
      List.takeWhile_append_of_pos hall]
    simp
  unfold extnameOf
  simp only [htail]
  have h1 : (X ++ '.' :: t).all (· != '.') = false := by
    simp
  have h2 : ¬ (X ++ '.' :: t).length = t.length + 1 := by
    have : 0 < X.length := List.length_pos.2 hX
    simp only [List.length_append, List.length_cons]
    omega
  have h3 : ¬ (X ++ '.' :: t = ['.', '.']) := by
    intro h
    have hl := congrArg List.length h
    have : 0 < X.length := List.length_pos.2 hX
    have : 0 < t.length := List.length_pos.2 ht2
    simp only [List.length_append, List.length_cons, List.length_nil] at hl
    omega
  simp [h1, h2, h3, hX]

theorem basename_prefix_of_component (p ext : String) : (basename p ext).data <+: lastComponent p.data := by
  unfold basename
  simp only
  split
  · exact List.prefix_refl _
  · split
    · exact List.nil_prefix
    · split
      · exact List.take_prefix _ _
      · exact List.prefix_refl _

theorem afterEffectsNameMatch_eq (url : String) (re : Bool) :
    afterEffectsNameMatch url re = includes (basename url (extname url)) (nameKey re) := rfl

theorem nameKey_no_dot (re : Bool) : '.' ∉ (nameKey re).data := by
  cases re <;> decide

theorem nameKey_length (re : Bool) : 19 ≤ (nameKey re).data.length := by
  cases re <;> decide

/-- What the locator tests on a path follows from the entry name alone. -/
theorem nameMatch_of_name {dir n : String} {re : Bool} (hn : validName n = true)
    (hk : includes n (nameKey re) = true) (he : endsWith n ".app" = true) :
    afterEffectsNameMatch (pathJoin dir n) re = true := by
  rw [afterEffectsNameMatch_eq]
  rw [includes_iff] at hk ⊢
  rw [endsWith_iff] at he
  obtain ⟨X, hX⟩ := he
  have hlen := nameKey_length re
  have h4 : (".app" : String).data.length = 4 := by decide
  have hXne : X ≠ [] := by
    intro h
    have := hk.length_le
    rw [← hX, h, List.nil_append] at this
    omega
  have hc : lastComponent (pathJoin dir n).data = X ++ '.' :: ['a', 'p', 'p'] := by
    rw [lastComponent_pathJoin dir hn, ← hX]
  have hext : extname (pathJoin dir n) = ".app" := by
    unfold extname
    rw [hc, extnameOf_append hXne (by decide) (by decide)]
  obtain ⟨pre, hd, _⟩ := pathJoin_data dir hn
  have hbase : (basename (pathJoin dir n) ".app").data = X := by
    unfold basename
    simp only [hc]
    have h1 : ¬ ((".app" : String).data = []) := by decide
    have h2 : ¬ ((".app" : String) = pathJoin dir n) := by
      intro h
      have hl : (".app" : String).data.length = (pathJoin dir n).data.length := by rw [← h]
      rw [hd, ← hX, List.length_append, List.length_append] at hl
      have : 0 < X.length := List.length_pos.2 hXne
      omega
    have h3 : ((".app" : String).data.isSuffixOf (X ++ ['.', 'a', 'p', 'p']) &&
        (X ++ ['.', 'a', 'p', 'p']) != (".app" : String).data) = true := by
      rw [Bool.and_eq_true]
      constructor
      · rw [List.isSuffixOf_iff_suffix]
        exact List.suffix_append _ _
      · rw [bne_iff_ne]
        intro h
        have hl := congrArg List.length h
        have : 0 < X.length := List.length_pos.2 hXne
        rw [List.length_append, h4] at hl
        omega
    rw [if_neg h1, if_neg h2, if_pos h3]
    simp [h4]
  rw [hext, hbase]
  rw [← hX] at hk
  rcases infix_append_cons (nameKey_no_dot re) hk with h | h
  · exact h
  · exfalso
    have := h.length_le
    simp only [List.length_cons, List.length_nil] at this
    omega

theorem name_of_nameMatch {dir n : String} {re : Bool} (hn : validName n = true)
    (h : afterEffectsNameMatch (pathJoin dir n) re = true) :
    includes n (nameKey re) = true := by
  rw [afterEffectsNameMatch_eq, includes_iff] at h
  rw [includes_iff]
  have hp := basename_prefix_of_component (pathJoin dir n) (extname (pathJoin dir n))
  rw [lastComponent_pathJoin dir hn] at hp
  exact h.trans hp.isInfix

theorem endsWith_pathJoin {dir n : String} (hn : validName n = true) :
    endsWith (pathJoin dir n) ".app" = endsWith n ".app" := by
  rw [Bool.eq_iff_iff, endsWith_iff, endsWith_iff]
  exact suffix_pathJoin hn (by decide)

theorem pathJoin_injective {dir a b : String} (ha : validName a = true) (hb : validName b = true)
    (h : pathJoin dir a = pathJoin dir b) : a = b := by
  have h1 := lastComponent_pathJoin dir ha
  have h2 := lastComponent_pathJoin dir hb
  rw [h] at h1
  exact String.ext (h1.symm.trans h2)

/-! ## The locator: the running variable -/

theorem getAE_some {dir : String} {re : Bool} {es : List Entry} {p : String}
    (h : getAfterEffectsInDirSync dir re es = some p) :
    ∃ e ∈ es, p = pathJoin dir e.name ∧ isHit re p e = true := by
  induction es with
  | nil => simp [getAfterEffectsInDirSync] at h
  | cons e es ih =>
    simp only [getAfterEffectsInDirSync] at h
    split at h
    · rename_i hc
      simp only [Option.some.injEq] at h
      subst h
      exact ⟨e, List.mem_cons_self _ _, rfl, hc⟩
    · obtain ⟨e', he', hp⟩ := ih h
      exact ⟨e', List.mem_cons_of_mem _ he', hp⟩

theorem getAE_none {dir : String} {re : Bool} {es : List Entry} :
    getAfterEffectsInDirSync dir re es = none ↔
      ∀ e ∈ es, isHit re (pathJoin dir e.name) e = false := by
  induction es with
  | nil => simp [getAfterEffectsInDirSync]
  | cons e es ih =>
    simp only [getAfterEffectsInDirSync, List.mem_cons, forall_eq_or_imp]
    by_cases hc : isHit re (pathJoin dir e.name) e = true
    · have hc' := hc
      unfold isHit at hc'
      simp [hc', hc]
    · have hc' := hc
      unfold isHit at hc'
      simp only [Bool.not_eq_true] at hc
      simp [hc', hc, ih]

theorem getAE_truthy {dir : String} {re : Bool} {es : List Entry} {p : String}
    (h : getAfterEffectsInDirSync dir re es = some p) : truthyUrl (some p) = true := by
  obtain ⟨e, _, hp, _⟩ := getAE_some h
  rw [hp]; exact truthyUrl_pathJoin _ _

theorem getAE_nullOrTruthy (dir : String) (re : Bool) (es : List Entry) :
    NullOrTruthy (getAfterEffectsInDirSync dir re es) := by
  cases h : getAfterEffectsInDirSync dir re es with
  | none => exact Or.inl rfl
  | some p => exact Or.inr (getAE_truthy h)

theorem not_truthy_eq_none {r : Option String} (h : NullOrTruthy r)
    (hf : ¬ truthyUrl r = true) : r = none := by
  rcases h with h | h
  · exact h
  · exact absurd h hf

mutual
theorem findStep_nullOrTruthy (re : Bool) :
    ∀ (e : Entry) (dir : String), NullOrTruthy (findStep dir re none e)
  | .file _, dir => by simp [findStep, NullOrTruthy]
  | .dir n a cs, dir => by
    simp only [findStep]
    split
    · split
      · rename_i h; exact Or.inr h
      · rename_i h
        rw [not_truthy_eq_none (getAE_nullOrTruthy _ _ _) h]
        exact findLoop_nullOrTruthy re cs _
    · exact Or.inl rfl
theorem findLoop_nullOrTruthy (re : Bool) :
    ∀ (es : List Entry) (dir : String), NullOrTruthy (findLoop dir re none es)
  | [], dir => by simp [findLoop, NullOrTruthy]
  | e :: es, dir => by
    simp only [findLoop]
    split
    · rename_i h; exact Or.inr h
    · rename_i h
      rw [not_truthy_eq_none (findStep_nullOrTruthy re e dir) h]
      exact findLoop_nullOrTruthy re es dir
end

theorem findStep_dir (dir : String) (re : Bool) (n : String) (a : Bool) (cs : List Entry) :
    findStep dir re none (.dir n a cs) =
      if isAccessibleDirSync (.dir n a cs) && afterEffectsNameMatch (pathJoin dir n) false then
        findAfterEffectsSync (pathJoin dir n) cs re
      else none := by
  simp [findStep, findAfterEffectsSync]

theorem findAfterEffectsSync_eq (dir : String) (re : Bool) (es : List Entry) :
    findAfterEffectsSync dir es re =
      match getAfterEffectsInDirSync dir re es with
      | some p => some p
      | none => findLoop dir re none es := by
  unfold findAfterEffectsSync
  cases h : getAfterEffectsInDirSync dir re es with
  | none => simp [truthyUrl]
  | some p => simp [getAE_truthy h]

theorem findLoop_cons (dir : String) (re : Bool) (e : Entry) (es : List Entry) :
    findLoop dir re none (e :: es) =
      match findStep dir re none e with
      | some p => some p
      | none => findLoop dir re none es := by
  simp only [findLoop]
  rcases findStep_nullOrTruthy re e dir with h | h
  · rw [h]; simp [truthyUrl]
  · cases h' : findStep dir re none e with
    | none => simp [truthyUrl]
    | some p => rw [h'] at h; simp [h]

theorem findAfterEffectsSync_nullOrTruthy (dir : String) (re : Bool) (es : List Entry) :
    NullOrTruthy (findAfterEffectsSync dir es re) := by
  rw [findAfterEffectsSync_eq]
  cases h : getAfterEffectsInDirSync dir re es with
  | none => exact findLoop_nullOrTruthy re es dir
  | some p => exact Or.inr (getAE_truthy h)

theorem getAE_append_of_no_hit {dir : String} {re : Bool} {pre l : List Entry}
    (h : ∀ e ∈ pre, isHit re (pathJoin dir e.name) e = false) :
    getAfterEffectsInDirSync dir re (pre ++ l) = getAfterEffectsInDirSync dir re l := by
  induction pre with
  | nil => rfl
  | cons e pre ih =>
    have he := h e (List.mem_cons_self _ _)
    unfold isHit at he
    simp only [List.cons_append, getAfterEffectsInDirSync, he]
    exact ih (fun e' he' => h e' (List.mem_cons_of_mem _ he'))

theorem getAE_isSome_cons {dir : String} {re : Bool} {e : Entry} {es : List Entry} :
    (getAfterEffectsInDirSync dir re (e :: es)).isSome =
      (isHit re (pathJoin dir e.name) e || (getAfterEffectsInDirSync dir re es).isSome) := by
  simp only [getAfterEffectsInDirSync, isHit]
  split
  · rename_i h; simp [h]
  · rename_i h; simp [h]

theorem findLoop_isSome_cons {dir : String} {re : Bool} {e : Entry} {es : List Entry} :
    (findLoop dir re none (e :: es)).isSome =
      ((findStep dir re none e).isSome || (findLoop dir re none es).isSome) := by
  rw [findLoop_cons]
  cases findStep dir re none e <;> simp

theorem findAfterEffectsSync_isSome (dir : String) (re : Bool) (es : List Entry) :
    (findAfterEffectsSync dir es re).isSome =
      ((getAfterEffectsInDirSync dir re es).isSome || (findLoop dir re none es).isSome) := by
  rw [findAfterEffectsSync_eq]
  cases getAfterEffectsInDirSync dir re es <;> simp

/-! ## The locator: what the descent reaches -/

theorem mem_walk_cons {gate : String → Entry → Bool} {dir : String} {e : Entry}
    {es : List Entry} {x : String × Entry} :
    x ∈ walk gate dir (e :: es) ↔
      x = (pathJoin dir e.name, e) ∨ x ∈ belowEntry gate dir e ∨ x ∈ walk gate dir es := by
  simp [walk]

theorem mem_walk_direct {gate : String → Entry → Bool} {dir : String} {e : Entry}
    {es : List Entry} (h : e ∈ es) : (pathJoin dir e.name, e) ∈ walk gate dir es := by
  induction es with
  | nil => simp at h
  | cons e' es ih =>
    rw [mem_walk_cons]
    rcases List.mem_cons.1 h with h | h
    · left; rw [h]
    · right; right; exact ih h

mutual
theorem findStep_sound (re : Bool) : ∀ (e : Entry) (dir p : String),
    findStep dir re none e = some p →
      ∃ e', (p, e') ∈ belowEntry descends dir e ∧ isHit re p e' = true
  | .file _, dir, p => by simp [findStep]
  | .dir n a cs, dir, p => by
    intro h
    rw [findStep_dir] at h
    split at h
    · rename_i hg
      have hgate : descends (pathJoin dir n) (.dir n a cs) = true := hg
      rw [findAfterEffectsSync_eq] at h
      simp only [belowEntry, hgate, if_true]
      cases hga : getAfterEffectsInDirSync (pathJoin dir n) re cs with
      | some q =>
        rw [hga] at h
        simp only [Option.some.injEq] at h
        subst h
        obtain ⟨e', he', hq, hhit⟩ := getAE_some hga
        refine ⟨e', ?_, hhit⟩
        rw [hq]
        exact mem_walk_direct he'
      | none =>
        rw [hga] at h
        exact findLoop_sound re cs _ p h
    · simp at h
theorem findLoop_sound (re : Bool) : ∀ (es : List Entry) (dir p : String),
    findLoop dir re none es = some p →
      ∃ e', (p, e') ∈ walk descends dir es ∧ isHit re p e' = true
  | [], dir, p => by simp [findLoop]
  | e :: es, dir, p => by
    intro h
    rw [findLoop_cons] at h
    cases hs : findStep dir re none e with
    | some q =>
      rw [hs] at h
      simp only [Option.some.injEq] at h
      subst h
      obtain ⟨e', he', hhit⟩ := findStep_sound re e dir q hs
      exact ⟨e', mem_walk_cons.2 (Or.inr (Or.inl he')), hhit⟩
    | none =>
      rw [hs] at h
      obtain ⟨e', he', hhit⟩ := findLoop_sound re es dir p h
      exact ⟨e', mem_walk_cons.2 (Or.inr (Or.inr he')), hhit⟩
end

/-- A path the locator returns is the path of an entry its descent reaches, and
the entry passes the test of `getAfterEffectsInDirSync`. -/
theorem findAfterEffectsSync_sound {dir : String} {es : List Entry} {re : Bool} {p : String}
    (h : findAfterEffectsSync dir es re = some p) :
    ∃ e, (p, e) ∈ walk descends dir es ∧ isHit re p e = true := by
  rw [findAfterEffectsSync_eq] at h
  cases hga : getAfterEffectsInDirSync dir re es with
  | some q =>
    rw [hga] at h
    simp only [Option.some.injEq] at h
    subst h
    obtain ⟨e', he', hq, hhit⟩ := getAE_some hga
    refine ⟨e', ?_, hhit⟩
    rw [hq]
    exact mem_walk_direct he'
  | none =>
    rw [hga] at h
    exact findLoop_sound re es dir p h

mutual
theorem findStep_complete (re : Bool) : ∀ (e : Entry) (dir : String),
    (∃ x ∈ belowEntry descends dir e, isHit re x.1 x.2 = true) →
      (findStep dir re none e).isSome = true
  | .file _, dir => by simp [belowEntry]
  | .dir n a cs, dir => by
    rintro ⟨x, hx, hhit⟩
    simp only [belowEntry] at hx
    split at hx
    · rename_i hg
      have hg' : (isAccessibleDirSync (.dir n a cs) &&
          afterEffectsNameMatch (pathJoin dir n) false) = true := hg
      rw [findStep_dir, if_pos hg', findAfterEffectsSync_isSome]
      have := find_complete re cs (pathJoin dir n) ⟨x, hx, hhit⟩
      simpa using this
    · simp at hx
theorem find_complete (re : Bool) : ∀ (es : List Entry) (dir : String),
    (∃ x ∈ walk descends dir es, isHit re x.1 x.2 = true) →
      (getAfterEffectsInDirSync dir re es).isSome = true ∨
        (findLoop dir re none es).isSome = true
  | [], dir => by simp [walk]
  | e :: es, dir => by
    rintro ⟨x, hx, hhit⟩
    rw [getAE_isSome_cons, findLoop_isSome_cons]
    rcases mem_walk_cons.1 hx with h | h | h
    · left
      rw [h] at hhit
      simp [hhit]
    · right
      have := findStep_complete re e dir ⟨x, h, hhit⟩
      simp [this]
    · rcases find_complete re es dir ⟨x, h, hhit⟩ with h' | h'
      · left; simp [h']
      · right; simp [h']
end

/-- When the descent reaches an entry that passes the test, the locator
returns a path. -/
theorem findAfterEffectsSync_complete {dir : String} {es : List Entry} (re : Bool)
    (h : ∃ x ∈ walk descends dir es, isHit re x.1 x.2 = true) :
    (findAfterEffectsSync dir es re).isSome = true := by
  rw [findAfterEffectsSync_isSome]
  simpa using find_complete re es dir h

mutual
theorem belowEntry_mono {g₁ g₂ : String → Entry → Bool} (hg : ∀ u e, g₁ u e = true → g₂ u e = true) :
    ∀ (e : Entry) (dir : String) (x : String × Entry),
      x ∈ belowEntry g₁ dir e → x ∈ belowEntry g₂ dir e
  | .file _, dir, x => by simp [belowEntry]
  | .dir n a cs, dir, x => by
    simp only [belowEntry]
    intro h
    split at h
    · rename_i h1
      rw [if_pos (hg _ _ h1)]
      exact walk_mono hg cs _ x h
    · simp at h
theorem walk_mono {g₁ g₂ : String → Entry → Bool} (hg : ∀ u e, g₁ u e = true → g₂ u e = true) :
    ∀ (es : List Entry) (dir : String) (x : String × Entry),
      x ∈ walk g₁ dir es → x ∈ walk g₂ dir es
  | [], dir, x => by simp [walk]
  | e :: es, dir, x => by
    rw [mem_walk_cons, mem_walk_cons]
    rintro (h | h | h)
    · exact Or.inl h
    · exact Or.inr (Or.inl (belowEntry_mono hg e dir x h))
    · exact Or.inr (Or.inr (walk_mono hg es dir x h))
end

mutual
theorem belowEntry_url (g : String → Entry → Bool) :
    ∀ (e : Entry) (dir : String) (x : String × Entry),
      x ∈ belowEntry g dir e → ∃ d, x.1 = pathJoin d x.2.name
  | .file _, dir, x => by simp [belowEntry]
  | .dir n a cs, dir, x => by
    simp only [belowEntry]
    intro h
    split at h
    · exact walk_url g cs _ x h
    · simp at h
theorem walk_url (g : String → Entry → Bool) :
    ∀ (es : List Entry) (dir : String) (x : String × Entry),
      x ∈ walk g dir es → ∃ d, x.1 = pathJoin d x.2.name
  | [], dir, x => by simp [walk]
  | e :: es, dir, x => by
    rw [mem_walk_cons]
    rintro (h | h | h)
    · exact ⟨dir, by rw [h]⟩
    · exact belowEntry_url g e dir x h
    · exact walk_url g es dir x h
end

theorem mem_treeEntries_of_walk {g : String → Entry → Bool} {dir : String} {es : List Entry}
    {x : String × Entry} (h : x ∈ walk g dir es) : x ∈ treeEntries dir es :=
  walk_mono (fun _ _ _ => rfl) es dir x h

theorem isAccessibleDirSync_isDirectory {e : Entry} (h : isAccessibleDirSync e = true) :
    isDirectory e = true := by
  cases e <;> simp_all [isAccessibleDirSync, isDirectory]

theorem isBundle_of_isHit {dir : String} {es : List Entry} {x : String × Entry}
    (hx : x ∈ treeEntries dir es) (hn : wellNamed dir es = true)
    (h : isHit false x.1 x.2 = true) : isBundle x.2 = true := by
  have hv : validName x.2.name = true := by
    have := List.all_eq_true.1 hn x hx
    simpa using this
  obtain ⟨d, hd⟩ := walk_url _ es dir x hx
  simp only [isHit, Bool.and_eq_true] at h
  obtain ⟨⟨h1, h2⟩, h3⟩ := h
  rw [hd] at h2 h3
  simp only [isBundle, Bool.and_eq_true]
  refine ⟨⟨isAccessibleDirSync_isDirectory h1, ?_⟩, ?_⟩
  · exact name_of_nameMatch hv h2
  · rw [← endsWith_pathJoin hv]; exact h3

theorem isHit_of_isBundle {dir : String} {es : List Entry} {x : String × Entry}
    (hx : x ∈ treeEntries dir es) (hn : wellNamed dir es = true)
    (ha : allAccessible dir es = true) (h : isBundle x.2 = true) :
    isHit false x.1 x.2 = true := by
  have hv : validName x.2.name = true := by
    have := List.all_eq_true.1 hn x hx
    simpa using this
  obtain ⟨d, hd⟩ := walk_url _ es dir x hx
  simp only [isBundle, Bool.and_eq_true] at h
  obtain ⟨⟨h1, h2⟩, h3⟩ := h
  have hacc : isAccessibleDirSync x.2 = true := by
    have := List.all_eq_true.1 ha x hx
    simpa [h1] using this
  simp only [isHit, Bool.and_eq_true]
  rw [hd]
  refine ⟨⟨hacc, ?_⟩, ?_⟩
  · exact nameMatch_of_name hv h2 h3
  · rw [endsWith_pathJoin hv]; exact h3

theorem isHit_eq_isAccessibleBundle {dir : String} {e : Entry} (hv : validName e.name = true) :
    isHit false (pathJoin dir e.name) e = isAccessibleBundle e := by
  unfold isHit isAccessibleBundle
  rw [endsWith_pathJoin hv]
  cases hacc : isAccessibleDirSync e
  · simp
  · cases hends : endsWith e.name ".app"
    · simp
    · cases hinc : includes e.name "Adobe After Effects"
      · simp only [Bool.true_and, Bool.and_true]
        cases hm : afterEffectsNameMatch (pathJoin dir e.name) false
        · rfl
        · have := name_of_nameMatch hv hm
          have hk : nameKey false = "Adobe After Effects" := by decide
          rw [hk, hinc] at this
          exact absurd this (by simp)
      · simp only [Bool.true_and, Bool.and_true]
        exact nameMatch_of_name hv hinc hends

/-! ## The locator: results -/

/-- C4: in a tree of listable names whose directories are all accessible, if
there is exactly one bundle and it lies in `dir` itself or below a chain of
directories whose base names, extension stripped, contain "Adobe After Effects",
`findAfterEffectsSync(dir, false)` returns the path of that bundle; and if the
tree has no bundle at all it returns `null`. -/
theorem findAfterEffectsSync_unique_bundle (dir : String) (es : List Entry) (p : String)
    (hn : wellNamed dir es = true) (ha : allAccessible dir es = true) :
    (bundlePaths dir es = [p] → p ∈ reachableBundlePaths dir es →
        findAfterEffectsSync dir es false = some p) ∧
      (bundlePaths dir es = [] → findAfterEffectsSync dir es false = none) := by
  have key : ∀ q, findAfterEffectsSync dir es false = some q → q ∈ bundlePaths dir es := by
    intro q hq
    obtain ⟨e, he, hhit⟩ := findAfterEffectsSync_sound hq
    have hx := mem_treeEntries_of_walk he
    unfold bundlePaths
    rw [List.mem_map]
    exact ⟨(q, e), List.mem_filter.2 ⟨hx, isBundle_of_isHit hx hn hhit⟩, rfl⟩
  constructor
  · intro hb hr
    unfold reachableBundlePaths at hr
    rw [List.mem_map] at hr
    obtain ⟨x, hx, hxp⟩ := hr
    rw [List.mem_filter] at hx
    have hhit := isHit_of_isBundle (mem_treeEntries_of_walk hx.1) hn ha hx.2
    have hsome := findAfterEffectsSync_complete false ⟨x, hx.1, hhit⟩
    obtain ⟨q, hq⟩ := Option.isSome_iff_exists.1 hsome
    have hmem := key q hq
    rw [hb, List.mem_singleton] at hmem
    rw [hq, hmem]
  · intro hb
    cases hq : findAfterEffectsSync dir es false with
    | none => rfl
    | some q =>
      have hmem := key q hq
      rw [hb] at hmem
      simp at hmem

/-- The standard installation: the one bundle lies below a folder the descent
enters, and the locator returns its path. -/
theorem findAfterEffectsSync_unique_bundle_witness :
    findAfterEffectsSync "/Applications" installTree false =
      some "/Applications/Adobe After Effects CC/Adobe After Effects CC.app" :=
  (findAfterEffectsSync_unique_bundle "/Applications" installTree
    "/Applications/Adobe After Effects CC/Adobe After Effects CC.app"
    (by decide) (by decide)).1 (by decide) (by decide)

/-- A tree with one bundle, below `Utilities`: the locator returns `null`. -/
theorem findAfterEffectsSync_misses_bundle :
    wellNamed "/Applications" hiddenBundleTree = true ∧
      allAccessible "/Applications" hiddenBundleTree = true ∧
      bundlePaths "/Applications" hiddenBundleTree =
        ["/Applications/Utilities/Adobe After Effects.app"] ∧
      findAfterEffectsSync "/Applications" hiddenBundleTree false = none := by
  decide

/-- C5: in a listing of listable names that holds a plain bundle and a
render-engine bundle, both accessible, where the plain bundle comes before every
other accessible directory whose name contains "Adobe After Effects" and ends
with ".app", `findAfterEffectsSync(dir, false)` returns the path of the plain
bundle and not the path of the render-engine bundle. -/
theorem findAfterEffectsSync_first_bundle (dir : String) (pre post : List Entry)
    (plain engine : Entry)
    (hplain : isPlainBundle plain = true) (hengine : isRenderEngineBundle engine = true)
    (hmem : engine ∈ post)
    (hnames : ∀ e ∈ pre ++ plain :: post, validName e.name = true)
    (hpre : ∀ e ∈ pre, isAccessibleBundle e = false) :
    findAfterEffectsSync dir (pre ++ plain :: post) false = some (pathJoin dir plain.name) ∧
      findAfterEffectsSync dir (pre ++ plain :: post) false ≠ some (pathJoin dir engine.name) := by
  have hvp : validName plain.name = true := hnames plain (by simp)
  have hve : validName engine.name = true :=
    hnames engine (List.mem_append_right _ (List.mem_cons_of_mem _ hmem))
  simp only [isPlainBundle, Bool.and_eq_true, Bool.not_eq_true'] at hplain
  obtain ⟨⟨⟨hp1, hp2⟩, hp3⟩, hp4⟩ := hplain
  simp only [isRenderEngineBundle, Bool.and_eq_true] at hengine
  obtain ⟨⟨_, he2⟩, _⟩ := hengine
  have hfind : findAfterEffectsSync dir (pre ++ plain :: post) false =
      some (pathJoin dir plain.name) := by
    have hnone : ∀ e ∈ pre, isHit false (pathJoin dir e.name) e = false := by
      intro e he
      rw [isHit_eq_isAccessibleBundle (hnames e (List.mem_append_left _ he))]
      exact hpre e he
    have hhit : isHit false (pathJoin dir plain.name) plain = true := by
      rw [isHit_eq_isAccessibleBundle hvp]
      simp [isAccessibleBundle, hp1, hp2, hp4]
    rw [findAfterEffectsSync_eq, getAE_append_of_no_hit hnone]
    unfold isHit at hhit
    simp only [getAfterEffectsInDirSync, hhit, if_true]
  refine ⟨hfind, ?_⟩
  rw [hfind]
  intro h
  simp only [Option.some.injEq] at h
  have hname := pathJoin_injective hvp hve h
  rw [includes_iff] at he2
  have hsub : ("Render Engine" : String).data <:+: engine.name.data := by
    have h0 : ("Render Engine" : String).data <:+:
        ("Adobe After Effects Render Engine" : String).data :=
      (includes_iff _ _).1 (by decide)
    exact h0.trans he2
  rw [← hname, ← includes_iff, hp3] at hsub
  exact absurd hsub (by simp)

/-- A listing with the plain bundle ahead of the render engine. -/
theorem findAfterEffectsSync_first_bundle_witness :
    findAfterEffectsSync "/Applications/Adobe After Effects CC" plainFirstListing false =
      some "/Applications/Adobe After Effects CC/Adobe After Effects CC.app" :=
  (findAfterEffectsSync_first_bundle "/Applications/Adobe After Effects CC"
    [.file "Install Log.txt"] [.dir "Adobe After Effects Render Engine.app" true []]
    (.dir "Adobe After Effects CC.app" true [])
    (.dir "Adobe After Effects Render Engine.app" true [])
    (by decide) (by decide) (List.mem_singleton.2 rfl) (by decide) (by decide)).1

/-- A listing with the render engine ahead of the plain bundle: without the flag
the locator returns the path of the render engine. -/
theorem findAfterEffectsSync_returns_engine :
    isRenderEngineBundle (.dir "Adobe After Effects Render Engine.app" true []) = true ∧
      isPlainBundle (.dir "Adobe After Effects.app" true []) = true ∧
      findAfterEffectsSync "/Applications/Adobe After Effects CC" engineFirstListing false =
        some "/Applications/Adobe After Effects CC/Adobe After Effects Render Engine.app" := by
  decide

/-- C6: a path that `findAfterEffectsSync(dir, true)` returns is the path of an
accessible directory of the tree, its base name with the extension stripped
contains "Adobe After Effects Render Engine", and it ends with ".app"; this
covers the paths found in the listing of `dir` and those found by the descent. -/
theorem findAfterEffectsSync_renderEngine_result (dir : String) (es : List Entry) (p : String)
    (h : findAfterEffectsSync dir es true = some p) :
    p ∈ accessibleDirs dir es ∧
      includes (basename p (extname p)) "Adobe After Effects Render Engine" = true ∧
      endsWith p ".app" = true := by
  obtain ⟨e, he, hhit⟩ := findAfterEffectsSync_sound h
  simp only [isHit, Bool.and_eq_true] at hhit
  obtain ⟨⟨h1, h2⟩, h3⟩ := hhit
  refine ⟨?_, h2, h3⟩
  unfold accessibleDirs
  rw [List.mem_map]
  exact ⟨(p, e), List.mem_filter.2 ⟨mem_treeEntries_of_walk he, h1⟩, rfl⟩

/-- With the render-engine flag the locator finds the render engine inside the
version folder. -/
theorem findAfterEffectsSync_renderEngine_result_witness :
    findAfterEffectsSync "/Applications" engineTree true =
        some "/Applications/Adobe After Effects CC/Adobe After Effects Render Engine.app" ∧
      "/Applications/Adobe After Effects CC/Adobe After Effects Render Engine.app" ∈
        accessibleDirs "/Applications" engineTree :=
  ⟨by decide, (findAfterEffectsSync_renderEngine_result "/Applications" engineTree _ (by decide)).1⟩

/-! ## The render-engine guard -/

/-- C7: for every `aeUrl` that contains "Render Engine.app" and every program
body, `writeAppleScriptSync(body, aeUrl)` throws the error that says activating
the render engine is unsupported, and it has written no file by then. -/
theorem writeAppleScriptSync_renderEngine (escaped : String → String) (tmp uuid : String)
    (writeFileSync : String → String → Except String Unit) (adobified aeUrl : String)
    (h : includes aeUrl "Render Engine.app" = true) :
    writeAppleScriptSync escaped tmp uuid writeFileSync adobified aeUrl =
      ⟨.error (.error renderEngineMessage), []⟩ := by
  simp [writeAppleScriptSync, prepareAppleScript, h]

/-- The render engine of a standard installation is refused before any write. -/
theorem writeAppleScriptSync_renderEngine_witness :
    afterEffectsNameMatch
        "/Applications/Adobe After Effects CC/Adobe After Effects Render Engine.app" true = true ∧
      writeAppleScriptSync id "/tmp" "0" (fun _ _ => .ok ()) "alert(1)"
          "/Applications/Adobe After Effects CC/Adobe After Effects Render Engine.app" =
        ⟨.error (.error renderEngineMessage), []⟩ :=
  ⟨by decide,
    writeAppleScriptSync_renderEngine id "/tmp" "0" (fun _ _ => .ok ()) "alert(1)"
      "/Applications/Adobe After Effects CC/Adobe After Effects Render Engine.app" (by decide)⟩

/-- A path the locator accepts with the render-engine flag, with text between
"Render Engine" and ".app": the guard lets it pass and the script is written. -/
theorem writeAppleScriptSync_writes_for_engine :
    afterEffectsNameMatch "/Applications/Adobe After Effects Render Engine 2.app" true = true ∧
      endsWith "/Applications/Adobe After Effects Render Engine 2.app" ".app" = true ∧
      writeAppleScriptSync id "/tmp" "0" (fun _ _ => .ok ()) "alert(1)"
          "/Applications/Adobe After Effects Render Engine 2.app" =
        ⟨.ok "/tmp/ae-command-0.scpt",
          [.wroteFile "/tmp/ae-command-0.scpt"
            "tell application \"/Applications/Adobe After Effects Render Engine 2.app\"\n  DoScript \"alert(1)\"\nend tell"]⟩ := by
  refine ⟨by decide, by decide, ?_⟩
  have h : includes "/Applications/Adobe After Effects Render Engine 2.app" "Render Engine.app" = false := by
    decide
  simp [writeAppleScriptSync, prepareAppleScript, h]
  decide

/-! ## Escaping and reading back -/

theorem hexDigit_printable : ∀ n, n < 16 →
    (32 ≤ (hexDigit n).toNat ∧ (hexDigit n).toNat ≤ 126) ∧
      (hexDigit n).toNat ≠ 34 ∧ (hexDigit n).toNat ≠ 92 := by
  decide

theorem char_toNat_lt (c : Char) :
    c.toNat < 55296 ∨ (57343 < c.toNat ∧ c.toNat < 1114112) := by
  have h := c.valid
  simp only [UInt32.isValidChar, Nat.isValidChar] at h
  exact h

theorem bs_toNat : (Char.ofNat 92).toNat = 92 := by decide

theorem isWhitelisted_range {c : Char} (h : isWhitelisted c = true) :
    32 ≤ c.toNat ∧ c.toNat ≤ 126 ∧ c.toNat ≠ 34 ∧ c.toNat ≠ 92 := by
  simp only [isWhitelisted, Bool.or_eq_true, Bool.and_eq_true, decide_eq_true_eq] at h
  omega

theorem escapeChar_shape (c : Char) (next : Option Char) :
    (escapeChar c next = [c] ∧ 32 ≤ c.toNat ∧ c.toNat ≤ 126 ∧ c.toNat ≠ 34 ∧ c.toNat ≠ 92) ∨
      (∃ e, escapeChar c next = [Char.ofNat 92, e] ∧ 32 ≤ e.toNat ∧ e.toNat ≤ 126) ∨
      escapeChar c next = (codeUnits c).flatMap escapeUnit := by
  unfold escapeChar
  by_cases hw : isWhitelisted c = true
  · rw [if_pos hw]
    obtain ⟨_, _, _, _⟩ := isWhitelisted_range hw
    exact Or.inl ⟨rfl, by omega, by omega, by omega, by omega⟩
  rw [if_neg hw]
  by_cases h34 : c.toNat = 34
  · rw [if_pos h34]; exact Or.inr (Or.inl ⟨c, rfl, by omega, by omega⟩)
  rw [if_neg h34]
  by_cases h96 : c.toNat = 96
  · rw [if_pos h96]; exact Or.inl ⟨rfl, by omega, by omega, by omega, by omega⟩
  rw [if_neg h96]
  by_cases h39 : c.toNat = 39
  · rw [if_pos h39]; exact Or.inl ⟨rfl, by omega, by omega, by omega, by omega⟩
  rw [if_neg h39]
  by_cases h0 : c.toNat = 0 ∧ next.any isDigit = false
  · rw [if_pos h0]; exact Or.inr (Or.inl ⟨_, rfl, by decide, by decide⟩)
  rw [if_neg h0]
  by_cases h92 : c.toNat = 92
  · rw [if_pos h92]; exact Or.inr (Or.inl ⟨_, rfl, by decide, by decide⟩)
  rw [if_neg h92]
  by_cases h8 : c.toNat = 8
  · rw [if_pos h8]; exact Or.inr (Or.inl ⟨_, rfl, by decide, by decide⟩)
  rw [if_neg h8]
  by_cases h12 : c.toNat = 12
  · rw [if_pos h12]; exact Or.inr (Or.inl ⟨_, rfl, by decide, by decide⟩)
  rw [if_neg h12]
  by_cases h10 : c.toNat = 10
  · rw [if_pos h10]; exact Or.inr (Or.inl ⟨_, rfl, by decide, by decide⟩)
  rw [if_neg h10]
  by_cases h13 : c.toNat = 13
  · rw [if_pos h13]; exact Or.inr (Or.inl ⟨_, rfl, by decide, by decide⟩)
  rw [if_neg h13]
  by_cases h9 : c.toNat = 9
  · rw [if_pos h9]; exact Or.inr (Or.inl ⟨_, rfl, by decide, by decide⟩)
  rw [if_neg h9]
  exact Or.inr (Or.inr rfl)

theorem codeUnits_lt (c : Char) : ∀ u ∈ codeUnits c, u < 65536 := by
  have hc := char_toNat_lt c
  unfold codeUnits
  split
  · intro u hu
    simp only [List.mem_singleton] at hu
    omega
  · intro u hu
    simp only [List.mem_cons, List.mem_singleton, List.not_mem_nil, or_false] at hu
    omega

theorem escapeUnit_printable {u : Nat} (h : u < 65536) :
    ∀ x ∈ escapeUnit u, 32 ≤ x.toNat ∧ x.toNat ≤ 126 := by
  have hx : ('x' : Char).toNat = 120 := by decide
  have hu : ('u' : Char).toNat = 117 := by decide
  have hb := bs_toNat
  unfold escapeUnit
  split
  · intro x hxm
    simp only [List.mem_cons, List.mem_singleton, List.not_mem_nil, or_false] at hxm
    have p1 := (hexDigit_printable (u / 16) (by omega)).1
    have p2 := (hexDigit_printable (u % 16) (by omega)).1
    rcases hxm with h | h | h | h <;> rw [h] <;> omega
  · intro x hxm
    simp only [List.mem_cons, List.mem_singleton, List.not_mem_nil, or_false] at hxm
    have p1 := (hexDigit_printable (u / 4096) (by omega)).1
    have p2 := (hexDigit_printable (u / 256 % 16) (by omega)).1
    have p3 := (hexDigit_printable (u / 16 % 16) (by omega)).1
    have p4 := (hexDigit_printable (u % 16) (by omega)).1
    rcases hxm with h | h | h | h | h | h <;> rw [h] <;> omega

theorem escapeChar_printable (c : Char) (next : Option Char) :
    ∀ x ∈ escapeChar c next, 32 ≤ x.toNat ∧ x.toNat ≤ 126 := by
  intro x hx
  rcases escapeChar_shape c next with ⟨h, h1, h2, _, _⟩ | ⟨e, h, h1, h2⟩ | h
  · rw [h, List.mem_singleton] at hx
    rw [hx]; exact ⟨h1, h2⟩
  · rw [h] at hx
    simp only [List.mem_cons, List.mem_singleton, List.not_mem_nil, or_false] at hx
    rcases hx with hx | hx
    · rw [hx, bs_toNat]; omega
    · rw [hx]; exact ⟨h1, h2⟩
  · rw [h, List.mem_flatMap] at hx
    obtain ⟨u, hu, hxu⟩ := hx
    exact escapeUnit_printable (codeUnits_lt c u hu) x hxu

theorem escapeAll_printable (s : List Char) :
    ∀ x ∈ escapeAll s, 32 ≤ x.toNat ∧ x.toNat ≤ 126 := by
  induction s with
  | nil => intro x hx; simp [escapeAll] at hx
  | cons c rest ih =>
    intro x hx
    simp only [escapeAll, List.mem_append] at hx
    rcases hx with hx | hx
    · exact escapeChar_printable c _ x hx
    · exact ih x hx

theorem hasBareQuote_raw {c : Char} (tail : List Char) (h1 : c.toNat ≠ 92) (h2 : c.toNat ≠ 34) :
    hasBareQuote (c :: tail) = hasBareQuote tail := by
  simp [hasBareQuote, hasBareQuoteAux, h1, h2]

theorem hasBareQuote_pair (e : Char) (tail : List Char) :
    hasBareQuote (Char.ofNat 92 :: e :: tail) = hasBareQuote tail := by
  simp [hasBareQuote, hasBareQuoteAux, bs_toNat]

theorem hasBareQuote_escapeUnit {u : Nat} (tail : List Char) (h : u < 65536) :
    hasBareQuote (escapeUnit u ++ tail) = hasBareQuote tail := by
  unfold escapeUnit
  split
  · have p1 := (hexDigit_printable (u / 16) (by omega)).2
    have p2 := (hexDigit_printable (u % 16) (by omega)).2
    simp only [List.cons_append, List.nil_append]
    rw [hasBareQuote_pair, hasBareQuote_raw _ p1.2 p1.1, hasBareQuote_raw _ p2.2 p2.1]
  · have p1 := (hexDigit_printable (u / 4096) (by omega)).2
    have p2 := (hexDigit_printable (u / 256 % 16) (by omega)).2
    have p3 := (hexDigit_printable (u / 16 % 16) (by omega)).2
    have p4 := (hexDigit_printable (u % 16) (by omega)).2
    simp only [List.cons_append, List.nil_append]
    rw [hasBareQuote_pair, hasBareQuote_raw _ p1.2 p1.1, hasBareQuote_raw _ p2.2 p2.1,
      hasBareQuote_raw _ p3.2 p3.1, hasBareQuote_raw _ p4.2 p4.1]

theorem hasBareQuote_units (c : Char) (tail : List Char) :
    hasBareQuote ((codeUnits c).flatMap escapeUnit ++ tail) = hasBareQuote tail := by
  have hc := char_toNat_lt c
  unfold codeUnits
  split
  · simp only [List.flatMap_cons, List.flatMap_nil, List.append_nil]
    exact hasBareQuote_escapeUnit tail (by omega)
  · simp only [List.flatMap_cons, List.flatMap_nil, List.append_nil, List.append_assoc]
    rw [hasBareQuote_escapeUnit _ (by omega), hasBareQuote_escapeUnit _ (by omega)]

theorem hasBareQuote_escapeChar (c : Char) (next : Option Char) (tail : List Char) :
    hasBareQuote (escapeChar c next ++ tail) = hasBareQuote tail := by
  rcases escapeChar_shape c next with ⟨h, _, _, h1, h2⟩ | ⟨e, h, _, _⟩ | h
  · rw [h]; exact hasBareQuote_raw tail h2 h1
  · rw [h]; exact hasBareQuote_pair e tail
  · rw [h]; exact hasBareQuote_units c tail

theorem hasBareQuote_escapeAll (s : List Char) : hasBareQuote (escapeAll s) = false := by
  induction s with
  | nil => rfl
  | cons c rest ih =>
    simp only [escapeAll]
    rw [hasBareQuote_escapeChar, ih]

theorem lastLine_append {x l : List Char} (hl : ∀ c ∈ l, c.toNat ≠ 10) :
    lastLine (x ++ Char.ofNat 10 :: l) = l := by
  unfold lastLine
  have hall : ∀ c ∈ l.reverse, (c != Char.ofNat 10) = true := by
    intro c hc
    rw [bne_iff_ne]
    intro h
    have := hl c (by simpa using hc)
    rw [h] at this
    exact this (by decide)
  rw [List.reverse_append, List.reverse_cons, List.append_assoc,
    List.takeWhile_append_of_pos hall]
  simp

theorem dropLastLine_append {x l : List Char} (hl : ∀ c ∈ l, c.toNat ≠ 10) :
    dropLastLine (x ++ Char.ofNat 10 :: l) = x := by
  unfold dropLastLine
  have hall : ∀ c ∈ l.reverse, (c != Char.ofNat 10) = true := by
    intro c hc
    rw [bne_iff_ne]
    intro h
    have := hl c (by simpa using hc)
    rw [h] at this
    exact this (by decide)
  rw [List.reverse_append, List.reverse_cons, List.append_assoc,
    List.dropWhile_append_of_pos hall]
  simp

theorem intercalate_three (a b c : String) :
    (String.intercalate "\n" [a, b, c]).data =
      a.data ++ Char.ofNat 10 :: (b.data ++ Char.ofNat 10 :: c.data) := by
  simp [String.intercalate, String.intercalate.go, String.data_append]

theorem embeddedBody_script (aeUrl esc : String) (hesc : ∀ c ∈ esc.data, c.toNat ≠ 10) :
    embeddedBody (String.intercalate "\n"
      ["tell application \"" ++ aeUrl ++ "\"", "  DoScript \"" ++ esc ++ "\"", "end tell"]) =
      some esc := by
  have hend : ∀ c ∈ ("end tell" : String).data, c.toNat ≠ 10 := by decide
  have hopen : ∀ c ∈ ("  DoScript \"" : String).data, c.toNat ≠ 10 := by decide
  have hline : ∀ c ∈ ("  DoScript \"" ++ esc ++ "\"" : String).data, c.toNat ≠ 10 := by
    intro c hc
    simp only [String.data_append, List.mem_append] at hc
    rcases hc with (hc | hc) | hc
    · exact hopen c hc
    · exact hesc c hc
    · revert c; decide
  unfold embeddedBody
  simp only [intercalate_three]
  rw [← List.cons_append, ← List.append_assoc, dropLastLine_append hend,
    lastLine_append hline]
  have hdata : ("  DoScript \"" ++ esc ++ "\"" : String).data =
      ("  DoScript \"" : String).data ++ (esc.data ++ [Char.ofNat 34]) := by
    simp only [String.data_append, List.append_assoc]
  rw [hdata]
  have h1 : (("  DoScript \"" : String).data.isPrefixOf
      (("  DoScript \"" : String).data ++ (esc.data ++ [Char.ofNat 34]))) = true := by
    rw [List.isPrefixOf_iff_prefix]
    exact List.prefix_append _ _
  have h2 : ((("  DoScript \"" : String).data ++ (esc.data ++ [Char.ofNat 34])).getLast? ==
      some (Char.ofNat 34)) = true := by
    rw [← List.append_assoc, List.getLast?_append_of_ne_nil _ (List.cons_ne_nil _ _)]
    rfl
  have h3 : decide (("  DoScript \"" : String).data.length <
      (("  DoScript \"" : String).data ++ (esc.data ++ [Char.ofNat 34])).length) = true := by
    simp
  rw [h1, h2, h3]
  simp

theorem isPlainChar_iff (c : Char) :
    isPlainChar c = true ↔
      (32 ≤ c.toNat ∧ c.toNat ≤ 126) ∨ c.toNat = 10 ∨ c.toNat = 13 ∨ c.toNat = 9 := by
  simp only [isPlainChar, Bool.or_eq_true, Bool.and_eq_true, decide_eq_true_eq]
  omega

theorem isPlainChar_of {c : Char}
    (h : (32 ≤ c.toNat ∧ c.toNat ≤ 126) ∨ c.toNat = 10 ∨ c.toNat = 13 ∨ c.toNat = 9) :
    isPlainChar c = true :=
  (isPlainChar_iff c).2 h

theorem isPlainChar_false_of {c : Char}
    (h : ¬ ((32 ≤ c.toNat ∧ c.toNat ≤ 126) ∨ c.toNat = 10 ∨ c.toNat = 13 ∨ c.toNat = 9)) :
    isPlainChar c = false := by
  cases hp : isPlainChar c with
  | false => rfl
  | true => exact absurd ((isPlainChar_iff c).1 hp) h

theorem not_isWhitelisted_range {c : Char} (h : ¬ isWhitelisted c = true) :
    ¬ (32 ≤ c.toNat ∧ c.toNat ≤ 126) ∨ c.toNat = 34 ∨ c.toNat = 39 ∨ c.toNat = 92 ∨
      c.toNat = 96 := by
  simp only [isWhitelisted, Bool.or_eq_true, Bool.and_eq_true, decide_eq_true_eq] at h
  omega

theorem char_of_toNat {c : Char} {n : Nat} (h : c.toNat = n) : Char.ofNat n = c := by
  rw [← h, Char.ofNat_toNat]

theorem readLiteralAux_raw {c : Char} (tail : List Char) (h1 : c.toNat ≠ 92)
    (h2 : c.toNat ≠ 34) :
    readLiteralAux false (c :: tail) = (readLiteralAux false tail).map (c :: ·) := by
  simp [readLiteralAux, h1, h2]

theorem readLiteralAux_pair (e : Char) (tail : List Char) :
    readLiteralAux false (Char.ofNat 92 :: e :: tail) = readLiteralAux true (e :: tail) := by
  simp [readLiteralAux, bs_toNat]

theorem readLiteralAux_unknown {e : Char} (tail : List Char) (h1 : e.toNat ≠ 92)
    (h2 : e.toNat ≠ 34) (h3 : e.toNat ≠ 110) (h4 : e.toNat ≠ 114) (h5 : e.toNat ≠ 116) :
    readLiteralAux true (e :: tail) = none := by
  simp [readLiteralAux, h1, h2, h3, h4, h5]

theorem readLiteralAux_backslash (tail : List Char) :
    readLiteralAux true (Char.ofNat 92 :: tail) =
      (readLiteralAux false tail).map (Char.ofNat 92 :: ·) := by
  simp [readLiteralAux, bs_toNat]

theorem readLiteralAux_quote {e : Char} (tail : List Char) (h : e.toNat = 34) :
    readLiteralAux true (e :: tail) = (readLiteralAux false tail).map (Char.ofNat 34 :: ·) := by
  simp [readLiteralAux, h]

theorem readLiteralAux_n (tail : List Char) :
    readLiteralAux true ('n' :: tail) = (readLiteralAux false tail).map (Char.ofNat 10 :: ·) := by
  have hn : ('n' : Char).toNat = 110 := by decide
  simp [readLiteralAux, hn]

theorem readLiteralAux_r (tail : List Char) :
    readLiteralAux true ('r' :: tail) = (readLiteralAux false tail).map (Char.ofNat 13 :: ·) := by
  have hr : ('r' : Char).toNat = 114 := by decide
  simp [readLiteralAux, hr]

theorem readLiteralAux_t (tail : List Char) :
    readLiteralAux true ('t' :: tail) = (readLiteralAux false tail).map (Char.ofNat 9 :: ·) := by
  have ht : ('t' : Char).toNat = 116 := by decide
  simp [readLiteralAux, ht]

theorem escapeUnit_shape (u : Nat) :
    ∃ e t, escapeUnit u = Char.ofNat 92 :: e :: t ∧ (e.toNat = 120 ∨ e.toNat = 117) := by
  unfold escapeUnit
  split
  · exact ⟨'x', _, rfl, Or.inl (by decide)⟩
  · exact ⟨'u', _, rfl, Or.inr (by decide)⟩

theorem readLiteralAux_units (c : Char) (tail : List Char) :
    readLiteralAux false ((codeUnits c).flatMap escapeUnit ++ tail) = none := by
  have key : ∀ (u : Nat) (more : List Char),
      readLiteralAux false (escapeUnit u ++ more) = none := by
    intro u more
    obtain ⟨e, t, he, hx⟩ := escapeUnit_shape u
    rw [he, List.cons_append, List.cons_append, readLiteralAux_pair]
    exact readLiteralAux_unknown _ (by omega) (by omega) (by omega) (by omega) (by omega)
  unfold codeUnits
  split
  · simp only [List.flatMap_cons, List.flatMap_nil, List.append_nil]
    exact key _ _
  · simp only [List.flatMap_cons, List.flatMap_nil, List.append_nil, List.append_assoc]
    exact key _ _

/-- What the host reads for the escape of one character: the character itself
when it is plain, and nothing otherwise. -/
theorem readLiteralAux_escapeChar (c : Char) (next : Option Char) (tail : List Char) :
    readLiteralAux false (escapeChar c next ++ tail) =
      if isPlainChar c then (readLiteralAux false tail).map (c :: ·) else none := by
  unfold escapeChar
  by_cases hw : isWhitelisted c = true
  · rw [if_pos hw]
    obtain ⟨_, _, _, _⟩ := isWhitelisted_range hw
    rw [isPlainChar_of (by omega), if_pos rfl]
    exact readLiteralAux_raw tail (by omega) (by omega)
  rw [if_neg hw]
  have hnw := not_isWhitelisted_range hw
  by_cases h34 : c.toNat = 34
  · rw [if_pos h34, isPlainChar_of (by omega), if_pos rfl]
    simp only [List.cons_append, List.nil_append]
    rw [readLiteralAux_pair, readLiteralAux_quote tail h34, char_of_toNat h34]
  rw [if_neg h34]
  by_cases h96 : c.toNat = 96
  · rw [if_pos h96, isPlainChar_of (by omega), if_pos rfl]
    exact readLiteralAux_raw tail (by omega) (by omega)
  rw [if_neg h96]
  by_cases h39 : c.toNat = 39
  · rw [if_pos h39, isPlainChar_of (by omega), if_pos rfl]
    exact readLiteralAux_raw tail (by omega) (by omega)
  rw [if_neg h39]
  by_cases h0 : c.toNat = 0 ∧ next.any isDigit = false
  · rw [if_pos h0, isPlainChar_false_of (by omega)]
    simp only [List.cons_append, List.nil_append]
    rw [readLiteralAux_pair]
    exact readLiteralAux_unknown tail (by decide) (by decide) (by decide) (by decide)
      (by decide)
  rw [if_neg h0]
  by_cases h92 : c.toNat = 92
  · rw [if_pos h92, isPlainChar_of (by omega), if_pos rfl]
    simp only [List.cons_append, List.nil_append]
    rw [readLiteralAux_pair, readLiteralAux_backslash, char_of_toNat h92]
  rw [if_neg h92]
  by_cases h8 : c.toNat = 8
  · rw [if_pos h8, isPlainChar_false_of (by omega)]
    simp only [List.cons_append, List.nil_append]
    rw [readLiteralAux_pair]
    exact readLiteralAux_unknown tail (by decide) (by decide) (by decide) (by decide)
      (by decide)
  rw [if_neg h8]
  by_cases h12 : c.toNat = 12
  · rw [if_pos h12, isPlainChar_false_of (by omega)]
    simp only [List.cons_append, List.nil_append]
    rw [readLiteralAux_pair]
    exact readLiteralAux_unknown tail (by decide) (by decide) (by decide) (by decide)
      (by decide)
  rw [if_neg h12]
  by_cases h10 : c.toNat = 10
  · rw [if_pos h10, isPlainChar_of (by omega), if_pos rfl]
    simp only [List.cons_append, List.nil_append]
    rw [readLiteralAux_pair, readLiteralAux_n, char_of_toNat h10]
  rw [if_neg h10]
  by_cases h13 : c.toNat = 13
  · rw [if_pos h13, isPlainChar_of (by omega), if_pos rfl]
    simp only [List.cons_append, List.nil_append]
    rw [readLiteralAux_pair, readLiteralAux_r, char_of_toNat h13]
  rw [if_neg h13]
  by_cases h9 : c.toNat = 9
  · rw [if_pos h9, isPlainChar_of (by omega), if_pos rfl]
    simp only [List.cons_append, List.nil_append]
    rw [readLiteralAux_pair, readLiteralAux_t, char_of_toNat h9]
  rw [if_neg h9, isPlainChar_false_of (by omega)]
  exact readLiteralAux_units c tail

/-- What the host reads for an escaped string: the string itself when all its
characters are plain, and nothing otherwise. -/
theorem readLiteralAux_escapeAll (s : List Char) :
    readLiteralAux false (escapeAll s) = if s.all isPlainChar then some s else none := by
  induction s with
  | nil => rfl
  | cons c rest ih =>
    simp only [escapeAll]
    rw [readLiteralAux_escapeChar, ih]
    cases hc : isPlainChar c <;> cases hr : rest.all isPlainChar <;> simp [hc, hr]

theorem reparse_escaped (s : String) :
    reparse (escaped s) = some s ↔ s.data.all isPlainChar = true := by
  simp only [reparse, escaped, jsesc, readLiteralAux_escapeAll]
  cases h : s.data.all isPlainChar
  · simp
  · simp

/-- C10: for every `aeUrl` that does not contain "Render Engine.app" and every
program body, the text between the double quotes of the `DoScript` line of the
script is the escaped body, it holds no double quote without a backslash before
it and no line break, and re-parsing it as a double-quoted AppleScript literal
gives the body again exactly when the body is made of printable ASCII
characters, line feeds, carriage returns and tabs, as a body with a double
quote and a line break is. -/
theorem prepareAppleScript_roundtrip (tmp uuid adobified aeUrl : String)
    (h : includes aeUrl "Render Engine.app" = false) :
    ∃ scptUrl scptTxt,
      prepareAppleScript escaped tmp uuid adobified aeUrl = .ok (scptUrl, scptTxt) ∧
        embeddedBody scptTxt = some (escaped adobified) ∧
        (reparse (escaped adobified) = some adobified ↔
          adobified.data.all isPlainChar = true) ∧
        hasBareQuote (escaped adobified).data = false ∧
        ∀ c ∈ (escaped adobified).data, c.toNat ≠ 10 ∧ c.toNat ≠ 13 := by
  have hprint := escapeAll_printable adobified.data
  have hbreak : ∀ c ∈ (escaped adobified).data, c.toNat ≠ 10 ∧ c.toNat ≠ 13 := by
    intro c hc
    have := hprint c hc
    omega
  refine ⟨pathJoin tmp ("ae-command-" ++ uuid ++ ".scpt"),
    String.intercalate "\n"
      ["tell application \"" ++ aeUrl ++ "\"", "  DoScript \"" ++ escaped adobified ++ "\"",
        "end tell"],
    ?_, embeddedBody_script aeUrl (escaped adobified) (fun c hc => (hbreak c hc).1),
    reparse_escaped adobified, hasBareQuote_escapeAll adobified.data, hbreak⟩
  simp [prepareAppleScript, h]

/-- A body with a double quote and a line break, sent to the application of a
standard installation: the text in the script reads back as the body. -/
theorem prepareAppleScript_roundtrip_witness :
    escaped "alert(\"a\nb\")" = "alert(\\\"a\\nb\\\")" ∧
      reparse (escaped "alert(\"a\nb\")") = some "alert(\"a\nb\")" ∧
      ∃ scptUrl scptTxt,
        prepareAppleScript escaped "/tmp" "0" "alert(\"a\nb\")"
            "/Applications/Adobe After Effects CC/Adobe After Effects CC.app" =
          .ok (scptUrl, scptTxt) ∧
        embeddedBody scptTxt = some (escaped "alert(\"a\nb\")") ∧
        (reparse (escaped "alert(\"a\nb\")") = some "alert(\"a\nb\")" ↔
          ("alert(\"a\nb\")" : String).data.all isPlainChar = true) ∧
        hasBareQuote (escaped "alert(\"a\nb\")").data = false ∧
        ∀ c ∈ (escaped "alert(\"a\nb\")").data, c.toNat ≠ 10 ∧ c.toNat ≠ 13 :=
  ⟨by decide, by decide,
    prepareAppleScript_roundtrip "/tmp" "0" "alert(\"a\nb\")"
      "/Applications/Adobe After Effects CC/Adobe After Effects CC.app" (by decide)⟩

/-- A body with a letter outside ASCII is written with a hexadecimal escape,
which the host does not read back; and a plain application below a folder
named like the render engine gets no script at all. -/
theorem escaped_letter_not_reparsed :
    includes "/Applications/Adobe After Effects CC/Adobe After Effects CC.app"
        "Render Engine.app" = false ∧
      escaped "é" = "\\xE9" ∧
      reparse (escaped "é") = none ∧
      afterEffectsNameMatch "/Volumes/Render Engine.app/Adobe After Effects.app" false = true ∧
      afterEffectsNameMatch "/Volumes/Render Engine.app/Adobe After Effects.app" true = false ∧
      endsWith "/Volumes/Render Engine.app/Adobe After Effects.app" ".app" = true ∧
      prepareAppleScript escaped "/tmp" "0" "alert(1)"
          "/Volumes/Render Engine.app/Adobe After Effects.app" =
        .error (.error renderEngineMessage) := by
  refine ⟨by decide, by decide, by decide, by decide, by decide, by decide, ?_⟩
  have h : includes "/Volumes/Render Engine.app/Adobe After Effects.app"
      "Render Engine.app" = true := by decide
  simp [prepareAppleScript, h]

/-! ## Execution and results -/

/-- C2: when the subprocess of `executeAppleScriptSync` fails with `err`, a
message that contains "Expected end of line but found" makes
`checkForMissingAppHack`, and with it the call, throw `AfterEffectsMissingError`;
any other message makes them throw `err` itself, unchanged. -/
theorem checkForMissingAppHack_classifies (err : HostError)
    (execSync : String → Except HostError Unit)
    (require : JSValue → Except String Envelope) (scriptUrl : String) (resultUrl : JSValue)
    (hfail : execSync ("osascript " ++ scriptUrl) = .error err) :
    (includes err.message "Expected end of line but found" = true →
        checkForMissingAppHack err = .afterEffectsMissing ∧
        (executeAppleScriptSync execSync require scriptUrl resultUrl).outcome =
          .error .afterEffectsMissing) ∧
      (includes err.message "Expected end of line but found" = false →
        checkForMissingAppHack err = .host err ∧
        (executeAppleScriptSync execSync require scriptUrl resultUrl).outcome =
          .error (.host err)) := by
  have hrun : (executeAppleScriptSync execSync require scriptUrl resultUrl).outcome =
      .error (checkForMissingAppHack err) := by
    simp only [executeAppleScriptSync, hfail]
  rw [hrun]
  constructor
  · intro h
    simp [checkForMissingAppHack, h]
  · intro h
    simp [checkForMissingAppHack, h]

/-- A host that reports the end-of-line text makes the blocking form throw the
missing-application error. -/
theorem checkForMissingAppHack_classifies_witness :
    (executeAppleScriptSync missingAppHost (requireFrom resultFiles) "/tmp/ae-command-0.scpt"
      (.str "/tmp/plain.js")).outcome = .error .afterEffectsMissing :=
  ((checkForMissingAppHack_classifies _ missingAppHost (requireFrom resultFiles)
    "/tmp/ae-command-0.scpt" (.str "/tmp/plain.js") rfl).1 (by decide)).2

/-- C3: with no `log` bound in the global scope, a failing subprocess makes the
blocking form throw what `checkForMissingAppHack` yields (the missing-application
error for the end-of-line text, the host error itself otherwise), while the
non-blocking form rejects with a `ReferenceError` for `log` in both cases. -/
theorem executeAppleScript_failure_diverges :
    (executeAppleScriptSync missingAppHost (requireFrom resultFiles) "/tmp/ae-command-0.scpt"
        (.str "/tmp/plain.js")).outcome = .error .afterEffectsMissing ∧
      (executeAppleScript none missingAppHost (requireFrom resultFiles) "/tmp/ae-command-0.scpt"
        (.str "/tmp/plain.js")).outcome = .error (.referenceError "log") ∧
      (executeAppleScriptSync brokenHost (requireFrom resultFiles) "/tmp/ae-command-0.scpt"
        (.str "/tmp/plain.js")).outcome =
          .error (.host { message := "Command failed: osascript: no such file",
                          status := some 1, stderr := "" }) ∧
      (executeAppleScript none brokenHost (requireFrom resultFiles) "/tmp/ae-command-0.scpt"
        (.str "/tmp/plain.js")).outcome = .error (.referenceError "log") := by
  refine ⟨?_, rfl, ?_, rfl⟩
  · have h : includes
        "Command failed: 23:31: syntax error: Expected end of line but found identifier. (-2741)"
        "Expected end of line but found" = true := by decide
    simp [executeAppleScriptSync, missingAppHost, checkForMissingAppHack, h]
  · have h : includes "Command failed: osascript: no such file"
        "Expected end of line but found" = false := by decide
    simp [executeAppleScriptSync, brokenHost, checkForMissingAppHack, h]

/-- On a subprocess that succeeds the two forms run the same. -/
theorem executeAppleScript_eq_sync_of_success (log : Option (HostError → Except JSError Unit))
    (exec : String → Except HostError Unit) (require : JSValue → Except String Envelope)
    (scriptUrl : String) (resultUrl : JSValue)
    (h : exec ("osascript " ++ scriptUrl) = .ok ()) :
    executeAppleScript log exec require scriptUrl resultUrl =
      executeAppleScriptSync exec require scriptUrl resultUrl := by
  simp only [executeAppleScript, executeAppleScriptSync, h]

/-- With a global `log` whose `task` returns, the two forms run the same. -/
theorem executeAppleScript_eq_sync_of_log (task : HostError → Except JSError Unit)
    (exec : String → Except HostError Unit) (require : JSValue → Except String Envelope)
    (scriptUrl : String) (resultUrl : JSValue) (htask : ∀ err, task err = .ok ()) :
    executeAppleScript (some task) exec require scriptUrl resultUrl =
      executeAppleScriptSync exec require scriptUrl resultUrl := by
  simp only [executeAppleScript, executeAppleScriptSync]
  cases exec ("osascript " ++ scriptUrl) with
  | error err => simp only [htask]
  | ok u => rfl

/-- C8: when `resultUrl` is `null`, `parseResults` returns `null` at once and
hands nothing to the loader. -/
theorem parseResults_null (require : JSValue → Except String Envelope) :
    parseResults require .null = ⟨.ok .null, []⟩ := rfl

/-- An unset `resultUrl` is handed to the loader, and the call throws
`NoResultError`. -/
theorem parseResults_undefined_loads :
    (parseResults (requireFrom resultFiles) .undefined).outcome = .error (.noResult "missing path") ∧
      loads (parseResults (requireFrom resultFiles) .undefined).trace = [.undefined] :=
  ⟨rfl, rfl⟩

/-- C1: for an envelope that `parseResults` loads from a `resultUrl` other than
`null`, the call throws `AfterEffectsScriptError` exactly when the envelope has
an error value that is truthy, the error thrown carries that value whatever the
result field holds, and in every other case the call returns the result field
as it is (`undefined` when the field is left out). -/
theorem parseResults_error_iff (require : JSValue → Except String Envelope)
    (resultUrl : JSValue) (results : Envelope)
    (hurl : resultUrl ≠ .null) (hload : require resultUrl = .ok results) :
    ((∃ payload, (parseResults require resultUrl).outcome = .error (.afterEffectsScript payload)) ↔
        ∃ v, results.error = some v ∧ v.truthy = true) ∧
      (∀ v, results.error = some v → v.truthy = true →
        (parseResults require resultUrl).outcome = .error (.afterEffectsScript v)) ∧
      ((¬ ∃ v, results.error = some v ∧ v.truthy = true) →
        (parseResults require resultUrl).outcome = .ok (results.result.getD .undefined)) := by
  have hrun : (parseResults require resultUrl).outcome =
      if (results.error.getD .undefined).truthy then
        .error (.afterEffectsScript (results.error.getD .undefined))
      else .ok (results.result.getD .undefined) := by
    cases resultUrl <;> first | exact absurd rfl hurl | (simp only [parseResults, hload]; split <;> rfl)
  have hpos : ∀ v, results.error = some v → v.truthy = true →
      (parseResults require resultUrl).outcome = .error (.afterEffectsScript v) := by
    intro v hv ht
    rw [hrun, hv]
    simp [ht]
  have hneg : (¬ ∃ v, results.error = some v ∧ v.truthy = true) →
      (parseResults require resultUrl).outcome = .ok (results.result.getD .undefined) := by
    intro h
    rw [hrun]
    cases he : results.error with
    | none => simp [JSValue.truthy]
    | some v =>
      have : v.truthy = false := by
        cases ht : v.truthy
        · rfl
        · exact absurd ⟨v, he, ht⟩ h
      simp [this]
  refine ⟨⟨?_, ?_⟩, hpos, hneg⟩
  · rintro ⟨payload, hp⟩
    by_contra hcon
    rw [hneg hcon] at hp
    cases hp
  · rintro ⟨v, hv, ht⟩
    exact ⟨v, hpos v hv ht⟩

/-- The envelope with error "boom" and result 42 makes the call throw "boom";
the envelope with result 42 alone makes it return 42. -/
theorem parseResults_error_iff_witness :
    (parseResults (requireFrom resultFiles) (.str "/tmp/boom.js")).outcome =
        .error (.afterEffectsScript (.str "boom")) ∧
      (parseResults (requireFrom resultFiles) (.str "/tmp/plain.js")).outcome =
        .ok (.num 42) :=
  ⟨(parseResults_error_iff (requireFrom resultFiles) (.str "/tmp/boom.js") boomEnvelope
      (by simp) rfl).2.1 (.str "boom") rfl rfl,
    (parseResults_error_iff (requireFrom resultFiles) (.str "/tmp/plain.js") plainEnvelope
      (by simp) rfl).2.2 (by rintro ⟨v, hv, _⟩; cases hv)⟩

/-- C9: for an envelope that `parseResults` loads, the log sink is called once
with the log lines of the envelope in their order when there is at least one
line, and is not called when the logs field is left out or empty; the calls are
part of the trace that precedes the outcome, so they come before any
`AfterEffectsScriptError` is thrown. -/
theorem parseResults_forwards_logs (require : JSValue → Except String Envelope)
    (resultUrl : JSValue) (results : Envelope)
    (hurl : resultUrl ≠ .null) (hload : require resultUrl = .ok results) :
    sinkCalls (parseResults require resultUrl).trace =
        (if (results.logs.getD []).isEmpty then [] else [results.logs.getD []]) ∧
      (sinkCalls (parseResults require resultUrl).trace).flatten = results.logs.getD [] := by
  have htrace : (parseResults require resultUrl).trace =
      .required resultUrl ::
        (if (results.logs.getD []).length > 0 then [Event.logged (results.logs.getD [])] else []) := by
    cases resultUrl <;> first | exact absurd rfl hurl | (simp only [parseResults, hload]; split <;> rfl)
  rw [htrace]
  cases hl : results.logs.getD [] with
  | nil => simp [sinkCalls]
  | cons a l => simp [sinkCalls]

/-- The envelope with logs "a", "b" and error "boom": the sink gets one call
with "a", "b", and the call throws "boom". -/
theorem parseResults_forwards_logs_witness :
    sinkCalls (parseResults (requireFrom resultFiles) (.str "/tmp/boom.js")).trace =
        [[.str "a", .str "b"]] ∧
      (parseResults (requireFrom resultFiles) (.str "/tmp/boom.js")).outcome =
        .error (.afterEffectsScript (.str "boom")) :=
  ⟨(parseResults_forwards_logs (requireFrom resultFiles) (.str "/tmp/boom.js") boomEnvelope
    (by simp) rfl).1, rfl⟩

end AfterEffects
